import Mathlib

set_option maxRecDepth 8000

/-!
Verification of the statute-text extraction pipeline (src/main.py).

Text is modelled as `List Char`.  Each Python function of the core
pipeline (`minimal_clean`, `detect_structure`, `build_records_per_pdf`,
`explode_ayat_rows_df`, `drop_penjelasan_df`) is translated into an
executable Lean function.  Regular-expression substitutions and scans
are translated into explicit left-to-right scanners; the scanners use a
fuel parameter (always called with fuel `length + 1`, which is shown to
be sufficient) so that they are structurally recursive and compute by
kernel reduction.

Python's `\s` class and `str.strip` are modelled on the ASCII
whitespace repertoire; `str.splitlines` is modelled with the newline
character as the only line boundary (upstream extraction removes
carriage returns).  `unicodedata.normalize('NFKC', ·)` is modelled by a
character-to-string map restricted to the repertoire this pipeline
manipulates: fullwidth digits decompose to ASCII digits and the
horizontal ellipsis to three full stops; all other characters are
fixed.
-/

/-- ASCII whitespace: models Python's regex class \s (and str.strip)
restricted to the ASCII repertoire. -/
def isWs (c : Char) : Bool :=
  c = ' ' || c = '\t' || c = '\n' || c = '\r' || c = '\x0b' || c = '\x0c'

/-- The characters of the regex class [ \t]. -/
def isSpTab (c : Char) : Bool := c = ' ' || c = '\t'

/-- Python str.lstrip (ASCII whitespace). -/
def lstrip (l : List Char) : List Char := l.dropWhile isWs

/-- Python str.rstrip (ASCII whitespace). -/
def rstrip (l : List Char) : List Char := (l.reverse.dropWhile isWs).reverse

/-- Python str.strip (ASCII whitespace). -/
def strip (l : List Char) : List Char := rstrip (lstrip l)

/-- Python str.splitlines, with the newline character as the only line
boundary.  A trailing newline does not produce a final empty line. -/
def splitNl : List Char → List (List Char)
  | [] => []
  | c :: rest =>
    if c = '\n' then [] :: splitNl rest
    else
      match splitNl rest with
      | [] => [[c]]
      | l :: ls => (c :: l) :: ls

/-- Python "\n".join(...). -/
def joinNl : List (List Char) → List Char
  | [] => []
  | [ln] => ln
  | ln :: ls => ln ++ '\n' :: joinNl ls

/-- Modelled unicodedata NFKC mapping on one character (see module
docstring): fullwidth digits decompose to ASCII digits, the horizontal
ellipsis to three full stops, all other characters are fixed. -/
def nfkcChar (c : Char) : List Char :=
  if c = '０' then ['0'] else if c = '１' then ['1']
  else if c = '２' then ['2'] else if c = '３' then ['3']
  else if c = '４' then ['4'] else if c = '５' then ['5']
  else if c = '６' then ['6'] else if c = '７' then ['7']
  else if c = '８' then ['8'] else if c = '９' then ['9']
  else if c = '…' then ['.', '.', '.']
  else [c]

/-- Modelled unicodedata.normalize('NFKC', t). -/
def nfkc (l : List Char) : List Char := l.flatMap nfkcChar

/-- One scanning step set for re.sub(r'-\n\s*', '', t): a hyphen
immediately followed by a newline is removed together with the
following whitespace run; other characters are copied. -/
def jhF : Nat → List Char → List Char
  | 0, l => l
  | _ + 1, [] => []
  | f + 1, c :: rest =>
    if c = '-' ∧ rest.head? = some '\n' then jhF f (rest.tail.dropWhile isWs)
    else c :: jhF f rest

/-- re.sub(r'-\n\s*', '', t): join line-wrap hyphenation. -/
def joinHyphen (l : List Char) : List Char := jhF (l.length + 1) l

/-- Attempt to match the regex \s*\.\s*\.\s*\.\s* at the head of l;
returns the remainder after the match.  Maximal munch of each \s* run
is exact here because whitespace and the full stop are disjoint. -/
def tryEllipsis (l : List Char) : Option (List Char) :=
  if ((l.dropWhile isWs).head? = some '.') then
    if (((l.dropWhile isWs).tail.dropWhile isWs).head? = some '.') then
      if ((((l.dropWhile isWs).tail.dropWhile isWs).tail.dropWhile isWs).head? = some '.') then
        some (((((l.dropWhile isWs).tail.dropWhile isWs).tail.dropWhile isWs).tail).dropWhile isWs)
      else none
    else none
  else none

def ellF : Nat → List Char → List Char
  | 0, l => l
  | _ + 1, [] => []
  | f + 1, c :: rest =>
    match tryEllipsis (c :: rest) with
    | some r => '…' :: ellF f r
    | none => c :: ellF f rest

/-- re.sub(r'\s*\.\s*\.\s*\.\s*', '…', t). -/
def ellipsisSub (l : List Char) : List Char := ellF (l.length + 1) l

/-- "\n".join(ln.rstrip() for ln in t.splitlines()). -/
def rstripLines (l : List Char) : List Char := joinNl ((splitNl l).map rstrip)

def cnlF : Nat → List Char → List Char
  | 0, l => l
  | _ + 1, [] => []
  | f + 1, c :: rest =>
    if c = '\n' then
      let k := (rest.takeWhile (fun d => d = '\n')).length
      (if 4 ≤ k + 1 then ['\n', '\n'] else List.replicate (k + 1) '\n')
        ++ cnlF f (rest.drop k)
    else c :: cnlF f rest

/-- re.sub(r'\n{4,}', '\n\n', text): collapse 4-or-more newlines. -/
def collapseNl (l : List Char) : List Char := cnlF (l.length + 1) l

def cspF : Nat → List Char → List Char
  | 0, l => l
  | _ + 1, [] => []
  | f + 1, c :: rest =>
    if isSpTab c then
      let k := (rest.takeWhile isSpTab).length
      (if 2 ≤ k + 1 then [' '] else [c]) ++ cspF f (rest.drop k)
    else c :: cspF f rest

/-- re.sub(r'[ \t]{2,}', ' ', text): collapse horizontal whitespace
runs of length at least two into a single space. -/
def collapseSp (l : List Char) : List Char := cspF (l.length + 1) l

/-- minimal_clean from src/main.py (the None guard of the Python code
is outside the text domain of this model). -/
def minimal_clean (t : List Char) : List Char :=
  let t1 := t.filter (fun c => c ≠ '\x00')
  let t2 := nfkc t1
  let t3 := joinHyphen t2
  let t4 := ellipsisSub t3
  let t5 := rstripLines t4
  let t6 := collapseNl t5
  let t7 := collapseSp t6
  strip t7

example : minimal_clean ("a- \nb").data = ("a-\nb").data := by decide
example : minimal_clean ("a-\nb").data = ("ab").data := by decide
example : minimal_clean ("a (  1) b").data = ("a ( 1) b").data := by decide
example : minimal_clean (". . .").data = ("…").data := by decide
example : minimal_clean ("  x\t \n\n\n\n\ny  ").data = ("x\n\ny").data := by decide
example : minimal_clean ("１").data = ("1").data := by decide

/-- Consume the literal pattern p case-insensitively at the head of l
(Python inline flag (?i)); returns the remainder. -/
def ciDrop : List Char → List Char → Option (List Char)
  | [], l => some l
  | _, [] => none
  | p :: ps, c :: cs => if p.toLower = c.toLower then ciDrop ps cs else none

/-- Characters of the case-insensitive class [IVXLC] (BUKU_RE, BAB_RE). -/
def isRomanBB (c : Char) : Bool :=
  let u := c.toUpper
  u = 'I' || u = 'V' || u = 'X' || u = 'L' || u = 'C'

/-- Characters of the case-insensitive class [0-9IVXLC] (BAGIAN_RE). -/
def isBagianLab (c : Char) : Bool := c.isDigit || isRomanBB c

/-- Characters of the case-insensitive class [IVXLCM] (PASAL_ANY_RE). -/
def isRomanPasal (c : Char) : Bool := isRomanBB c || c.toUpper = 'M'

def isAsciiLetter (c : Char) : Bool :=
  ('a' ≤ c && c ≤ 'z') || ('A' ≤ c && c ≤ 'Z')

/-- The suffix of l starting at its last newline, if any. -/
def fromLastNl : List Char → Option (List Char)
  | [] => none
  | c :: rest =>
    match fromLastNl rest with
    | some s => some s
    | none => if c = '\n' then some (c :: rest) else none

/-- Match the regex tail \s*$ (MULTILINE) at the head of r: the greedy
whitespace run backtracks to the longest position that is either the
end of the string or just before a newline.  Returns the remainder
after the match end. -/
def wsToEol (r : List Char) : Option (List Char) :=
  let run := r.takeWhile isWs
  let after := r.drop run.length
  if after.isEmpty then some []
  else
    match fromLastNl run with
    | some s => some (s ++ after)
    | none => none

/-- Match PASAL_ANY_RE after its ^ anchor: \s*Pasal\s+((\d+[A-Za-z]?)|
([IVXLCM]+))\s*$, case-insensitively, at the head of l.  Returns the
captured group 1 and the remainder after the match. -/
def pasalAfter (l : List Char) : Option (List Char × List Char) :=
  let r1 := l.dropWhile isWs
  match ciDrop ("pasal").data r1 with
  | none => none
  | some r2 =>
    let w := r2.takeWhile isWs
    if w.isEmpty then none else
    let r3 := r2.drop w.length
    let ds := r3.takeWhile Char.isDigit
    let tryDigits : Option (List Char × List Char) :=
      if ds.isEmpty then none else
      let r4 := r3.drop ds.length
      let withLetter : Option (List Char × List Char) :=
        match r4 with
        | c :: r5 =>
          if isAsciiLetter c then (wsToEol r5).map (fun rest => (ds ++ [c], rest))
          else none
        | [] => none
      let noLetter : Option (List Char × List Char) :=
        (wsToEol r4).map (fun rest => (ds, rest))
      withLetter <|> noLetter
    let rom := r3.takeWhile isRomanPasal
    let tryRoman : Option (List Char × List Char) :=
      if rom.isEmpty then none else
      (wsToEol (r3.drop rom.length)).map (fun rest => (rom, rest))
    tryDigits <|> tryRoman

/-- With re.MULTILINE, a match of a ^-anchored pattern can begin only
at position 0 or right after a newline. -/
def lineStartAt (t : List Char) (p : Nat) : Bool :=
  p = 0 || t.getD (p - 1) ' ' = '\n'

/-- Attempt a PASAL_ANY_RE match starting at position p of t; returns
the match end and the captured label. -/
def tryPasalAt (t : List Char) (p : Nat) : Option (Nat × List Char) :=
  if lineStartAt t p then
    (pasalAfter (t.drop p)).map (fun x => (t.length - x.2.length, x.1))
  else none

/-- re.finditer(PASAL_ANY_RE, t): scan left to right from position p,
resuming after each match end. -/
def pasalScanF : Nat → List Char → Nat → List (Nat × Nat × List Char)
  | 0, _, _ => []
  | f + 1, t, p =>
    if t.length < p then []
    else
      match tryPasalAt t p with
      | some (e, lbl) => (p, e, lbl) :: pasalScanF f t (max e (p + 1))
      | none => pasalScanF f t (p + 1)

def pasalScan (t : List Char) : List (Nat × Nat × List Char) :=
  pasalScanF (t.length + 1) t 0

/-- Match ^\s*KW\s+([chars]+)\s*(.*)$ case-insensitively against one
line (re.match of BUKU_RE / BAB_RE / BAGIAN_RE); returns groups 1 and
2. -/
def matchTagLine (kw : List Char) (labP : Char → Bool) (ln : List Char) :
    Option (List Char × List Char) :=
  let r1 := ln.dropWhile isWs
  match ciDrop kw r1 with
  | none => none
  | some r2 =>
    let w := r2.takeWhile isWs
    if w.isEmpty then none else
    let r3 := r2.drop w.length
    let lab := r3.takeWhile labP
    if lab.isEmpty then none else
    some (lab, (r3.drop lab.length).dropWhile isWs)

def matchBuku : List Char → Option (List Char × List Char) :=
  matchTagLine ("buku").data isRomanBB

def matchBab : List Char → Option (List Char × List Char) :=
  matchTagLine ("bab").data isRomanBB

def matchBagian : List Char → Option (List Char × List Char) :=
  matchTagLine ("bagian").data isBagianLab

/-- A hierarchy marker as stored by detect_structure: the tuple
(kind, group1.strip(), group2.strip()). -/
structure Tag where
  kind : List Char
  label : List Char
  title : List Char
deriving DecidableEq

/-- Collect (line offset, tag) pairs for one marker kind, walking the
lines with their absolute character offsets (pos advances by
len(line) + 1). -/
def collectMarks (f : List Char → Option (List Char × List Char)) (kind : List Char) :
    List (List Char) → Nat → List (Nat × Tag)
  | [], _ => []
  | ln :: rest, pos =>
    match f ln with
    | some x => (pos, ⟨kind, strip x.1, strip x.2⟩) ::
        collectMarks f kind rest (pos + ln.length + 1)
    | none => collectMarks f kind rest (pos + ln.length + 1)

/-- nearest_tag from detect_structure: the last marker at or before
idx (the loop breaks at the first later marker). -/
def nearestTag (idx : Nat) : List (Nat × Tag) → Option Tag → Option Tag
  | [], prev => prev
  | (p, tag) :: rest, prev =>
    if p ≤ idx then nearestTag idx rest (some tag) else prev

/-- Match ^\s*Pasal\s+lbl\s*$ (the header-strip pattern, with the
escaped exact label) after its ^ anchor; returns the remainder after
the match end. -/
def headerAfter (lbl : List Char) (l : List Char) : Option (List Char) :=
  let r1 := l.dropWhile isWs
  match ciDrop ("pasal").data r1 with
  | none => none
  | some r2 =>
    let w := r2.takeWhile isWs
    if w.isEmpty then none else
    match ciDrop lbl (r2.drop w.length) with
    | none => none
    | some r3 => wsToEol r3

def tryHeaderAt (lbl : List Char) (t : List Char) (p : Nat) : Option Nat :=
  if lineStartAt t p then
    (headerAfter lbl (t.drop p)).map (fun rest => t.length - rest.length)
  else none

/-- re.sub of the header pattern with the empty string: copy t while
deleting every match. -/
def headerSubF (lbl : List Char) : Nat → List Char → Nat → List Char
  | 0, _, _ => []
  | f + 1, t, p =>
    if p < t.length then
      match tryHeaderAt lbl t p with
      | some e => headerSubF lbl f t (max e (p + 1))
      | none => t.getD p ' ' :: headerSubF lbl f t (p + 1)
    else []

def headerSub (lbl : List Char) (t : List Char) : List Char :=
  headerSubF lbl (t.length + 1) t 0

/-- re.sub(r'[ \t]+', ' ', body): collapse every horizontal whitespace
run (of any positive length) into a single space. -/
def cstaF : Nat → List Char → List Char
  | 0, l => l
  | _ + 1, [] => []
  | f + 1, c :: rest =>
    if isSpTab c then ' ' :: cstaF f (rest.dropWhile isSpTab)
    else c :: cstaF f rest

def collapseSpTabAll (l : List Char) : List Char := cstaF (l.length + 1) l

/-- Python slice t[s:e]. -/
def sliceL (t : List Char) (s e : Nat) : List Char := (t.drop s).take (e - s)

/-- One detected Article block (the dict built by detect_structure). -/
structure Block where
  pasal_number : List Char
  text : List Char
  buku : Option Tag
  bab : Option Tag
  bagian : Option Tag
deriving DecidableEq

/-- The block-building loop of detect_structure: each block runs from
its match start to the next match start (or to the end of the text);
the body is the stripped slice, with the header line removed and
horizontal whitespace runs collapsed. -/
def blocksFrom (t : List Char) (bm am gm : List (Nat × Tag)) :
    List (Nat × Nat × List Char) → List Block
  | [] => []
  | (s, _, lbl) :: rest =>
    let e := match rest with
      | (s', _, _) :: _ => s'
      | [] => t.length
    let lab := strip lbl
    let body0 := strip (sliceL t s e)
    let body1 := strip (headerSub lab body0)
    let body := collapseSpTabAll body1
    { pasal_number := lab, text := body,
      buku := nearestTag s bm none, bab := nearestTag s am none,
      bagian := nearestTag s gm none } :: blocksFrom t bm am gm rest

/-- detect_structure from src/main.py. -/
def detect_structure (t : List Char) : List Block :=
  let lns := splitNl t
  let bm := collectMarks matchBuku ("BUKU").data lns 0
  let am := collectMarks matchBab ("BAB").data lns 0
  let gm := collectMarks matchBagian ("BAGIAN").data lns 0
  blocksFrom t bm am gm (pasalScan t)

/-- The start/end offset pairs of the blocks of detect_structure
(start = match start, end = next match start or document end). -/
def spansOf : List Nat → Nat → List (Nat × Nat)
  | [], _ => []
  | [s], n => [(s, n)]
  | s :: s' :: rest, n => (s, s') :: spansOf (s' :: rest) n

def pasal_spans (t : List Char) : List (Nat × Nat) :=
  spansOf ((pasalScan t).map (fun m => m.1)) t.length

/-- Per-document metadata (one entry of PDF_FILES; the pdf path is
replaced by the extracted source file name, extraction being outside
the modelled core). -/
structure Cfg where
  uu_code : List Char
  uu_name : List Char
  uu_number : List Char
  year : Int
  valid_from : Option (List Char)
  valid_to : Option (List Char)
  source_file : List Char
deriving DecidableEq

/-- One flat output record. -/
structure Record where
  uu_code : List Char
  uu_name : List Char
  uu_number : List Char
  year : Int
  section_type : List Char
  title : List Char
  pasal_number : List Char
  ayat_number : Option (List Char)
  buku : Option (List Char)
  bab : Option (List Char)
  bagian : Option (List Char)
  valid_from : Option (List Char)
  valid_to : Option (List Char)
  source_file : List Char
  text : List Char
deriving DecidableEq

/-- The record constructed for one block in build_records_per_pdf. -/
def mk_record (cfg : Cfg) (blk : Block) : Record :=
  { uu_code := cfg.uu_code, uu_name := cfg.uu_name, uu_number := cfg.uu_number,
    year := cfg.year,
    section_type := ("PASAL").data,
    title := ("Pasal ").data ++ blk.pasal_number,
    pasal_number := blk.pasal_number,
    ayat_number := none,
    buku := blk.buku.map Tag.label,
    bab := blk.bab.map Tag.label,
    bagian := blk.bagian.map Tag.label,
    valid_from := cfg.valid_from, valid_to := cfg.valid_to,
    source_file := cfg.source_file,
    text := minimal_clean blk.text }

/-- build_records_per_pdf from src/main.py, with the extracted raw
text passed directly (PDF reading is an external collaborator).  The
guard `not raw_text or not raw_text.strip()` holds exactly when the
stripped text is empty. -/
def build_records_per_pdf (cfg : Cfg) (t : List Char) : List Record :=
  if (strip t).isEmpty then []
  else (detect_structure t).map (mk_record cfg)

def toLowerL (l : List Char) : List Char := l.map Char.toLower

def toUpperL (l : List Char) : List Char := l.map Char.toUpper

/-- Attempt a match of AYAT_SPLIT_RE = \(\s*(\d+)\s*\) at the head of
l; returns the captured digits and the remainder after the match. -/
def tryAyatMarker : List Char → Option (List Char × List Char)
  | '(' :: r =>
    let r1 := r.dropWhile isWs
    let ds := r1.takeWhile Char.isDigit
    if ds.isEmpty then none else
    match (r1.drop ds.length).dropWhile isWs with
    | ')' :: r3 => some (ds, r3)
    | _ => none
  | _ => none

/-- re.split(AYAT_SPLIT_RE, l): the pieces between matches,
interleaved with the captured digit groups (the accumulator holds the
current piece reversed). -/
def ayatSplitF : Nat → List Char → List Char → List (List Char)
  | 0, acc, _ => [acc.reverse]
  | _ + 1, acc, [] => [acc.reverse]
  | f + 1, acc, c :: rest =>
    match tryAyatMarker (c :: rest) with
    | some x => acc.reverse :: x.1 :: ayatSplitF f [] x.2
    | none => ayatSplitF f (c :: acc) rest

def ayat_split (l : List Char) : List (List Char) :=
  ayatSplitF (l.length + 1) [] l

/-- Number of matches of AYAT_SPLIT_RE in l. -/
def countAyatF : Nat → List Char → Nat
  | 0, _ => 0
  | _ + 1, [] => 0
  | f + 1, c :: rest =>
    match tryAyatMarker (c :: rest) with
    | some x => countAyatF f x.2 + 1
    | none => countAyatF f rest

def countAyat (l : List Char) : Nat := countAyatF (l.length + 1) l

/-- The loop over range(1, len(parts), 2): successive
(parts[i], parts[i+1]) pairs taken from the tail of the split. -/
def ayatPairs : List (List Char) → List (List Char × List Char)
  | num :: seg :: rest => (num, seg) :: ayatPairs rest
  | _ => []

/-- The explosion guard on ayat_number: pd.isna(·) (None) or str(·) in
("", "nan"). -/
def ayatIsEmpty (r : Record) : Bool :=
  match r.ayat_number with
  | none => true
  | some s => s.isEmpty || s == ("nan").data

/-- The per-row body of the explode_ayat_rows_df loop: a PASAL row
with empty ayat_number whose text splits into more than one part is
replaced by one AYAT row per captured pair with non-empty trimmed
body; every other row passes through unchanged. -/
def explode_row (r : Record) : List Record :=
  let text := strip r.text
  if toUpperL r.section_type == ("PASAL").data && ayatIsEmpty r then
    let parts := ayat_split text
    if 1 < parts.length then
      (ayatPairs parts.tail).filterMap (fun pr =>
        let ay := strip pr.1
        let body := strip pr.2
        if body.isEmpty then none
        else some { r with section_type := ("AYAT").data,
                           ayat_number := some ay, text := body })
    else [r]
  else [r]

/-- explode_ayat_rows_df from src/main.py, on lists of records. -/
def explode_ayat_rows (df : List Record) : List Record :=
  df.flatMap explode_row

/-- Python substring membership p in l. -/
def containsSub (p : List Char) : List Char → Bool
  | [] => p.isEmpty
  | c :: rest => p.isPrefixOf (c :: rest) || containsSub p rest

/-- The is_penjelasan predicate of drop_penjelasan_df. -/
def is_penjelasan (r : Record) : Bool :=
  let text := toLowerL (strip r.text)
  let title := toLowerL r.title
  (("cukup jelas").data).isPrefixOf text || containsSub (("penjelasan").data) title

/-- drop_penjelasan_df from src/main.py: keep the rows where
is_penjelasan is false, in order. -/
def drop_penjelasan (df : List Record) : List Record :=
  df.filter (fun r => !(is_penjelasan r))

/-- The record-level pipeline of main(): build, explode, filter.  (The
astype-based relabelling step of main() rewrites only the
pasal_number/ayat_number label strings and is not modelled.) -/
def pipeline (cfg : Cfg) (t : List Char) : List Record :=
  drop_penjelasan (explode_ayat_rows (build_records_per_pdf cfg t))

/-- Sample metadata used by concrete witnesses. -/
def cfg0 : Cfg := ⟨("X").data, [], [], 0, none, none, []⟩

/-- A sample record with the given section type and body text. -/
def recOf (st tx : List Char) : Record :=
  { uu_code := [], uu_name := [], uu_number := [], year := 0,
    section_type := st, title := ("Pasal 9").data, pasal_number := ("9").data,
    ayat_number := none, buku := none, bab := none, bagian := none,
    valid_from := none, valid_to := none, source_file := [], text := tx }

/-- Whitespace other than the newline character (what str.rstrip may
remove from a single line). -/
def isTrWs (c : Char) : Bool := isWs c && !(c = '\n')

/-- No non-newline whitespace character stands immediately before a
newline (no line has trailing whitespace before its line break). -/
def NoTrailMid (x : List Char) : Prop :=
  ∀ c : Char, isTrWs c = true → ¬ ([c, '\n'] <:+: x)

/-- No four consecutive newline characters. -/
def NoQuad (x : List Char) : Prop := ¬ (['\n', '\n', '\n', '\n'] <:+: x)

/-- No two consecutive characters of the class [ \t]. -/
def NoDbl (x : List Char) : Prop :=
  ∀ c1 c2 : Char, isSpTab c1 = true → isSpTab c2 = true → ¬ ([c1, c2] <:+: x)

/-- The last character, if any, is not whitespace. -/
def LastOk (x : List Char) : Prop := ∀ c ∈ x.getLast?, isWs c = false

/-- The first character, if any, is not whitespace. -/
def FirstOk (x : List Char) : Prop := ∀ c ∈ x.head?, isWs c = false

/-- Characters that none of the cleaning passes of minimal_clean can
touch: not whitespace, not the hyphen, not the full stop, not NUL, and
fixed by the modelled NFKC map. -/
def inertC (c : Char) : Bool :=
  !(isWs c) && !(c = '-') && !(c = '.') && !(c = '\x00') && nfkcChar c == [c]

/-- Full-string match of AYAT_SPLIT_RE = \(\s*(\d+)\s*\): an opening
parenthesis, optional whitespace, one or more digits, optional
whitespace, a closing parenthesis. -/
def isAyatMarkerStr (l : List Char) : Bool :=
  match tryAyatMarker l with
  | some x => x.2.isEmpty
  | none => false

/-- The first paragraph record the pipeline produces for the document
"Pasal 1\n(1) a\n(2) b" under cfg0 (used as a concrete witness). -/
def recC5w : Record :=
  { uu_code := ("X").data, uu_name := [], uu_number := [], year := 0,
    section_type := ("AYAT").data, title := ("Pasal 1").data,
    pasal_number := ("1").data, ayat_number := some (("1").data),
    buku := none, bab := none, bagian := none,
    valid_from := none, valid_to := none, source_file := [],
    text := ("a").data }

theorem ayatSplitF_length (f : Nat) : ∀ (acc l : List Char),
    (ayatSplitF f acc l).length = 2 * countAyatF f l + 1 := by
  induction f with
  | zero => intro acc l; rfl
  | succ f ih =>
    intro acc l
    cases l with
    | nil => rfl
    | cons c rest =>
      cases h : tryAyatMarker (c :: rest) with
      | some x => simp [ayatSplitF, countAyatF, h, ih]; ring
      | none => simp [ayatSplitF, countAyatF, h, ih]

theorem ayat_split_length (l : List Char) :
    (ayat_split l).length = 2 * countAyat l + 1 :=
  ayatSplitF_length (l.length + 1) [] l

/-- C1 counterexample: a PASAL record with empty paragraph label whose
body contains exactly one numbered-paragraph marker is not left
unchanged by the exploder — it is exploded. -/
theorem C1_counterexample :
    countAyat (strip (recOf (("PASAL").data) (("(1) foo").data)).text) = 1 ∧
    explode_ayat_rows [recOf (("PASAL").data) (("(1) foo").data)] ≠
      [recOf (("PASAL").data) (("(1) foo").data)] := by
  exact ⟨by decide, by decide⟩

/-- C1 (amended): the exploder leaves a PASAL record with empty
paragraph label unchanged exactly when its stripped body contains zero
matches of the numbered-paragraph marker pattern; a single marker
already triggers explosion. -/
theorem C1_unexploded_iff_zero_markers (r : Record)
    (hs : toUpperL r.section_type = ("PASAL").data)
    (ha : ayatIsEmpty r = true)
    (hc : countAyat (strip r.text) = 0) :
    explode_row r = [r] := by
  have hcond : (toUpperL r.section_type == ("PASAL").data && ayatIsEmpty r) = true := by
    rw [Bool.and_eq_true, beq_iff_eq]
    exact ⟨hs, ha⟩
  have hlen : (ayat_split (strip r.text)).length = 1 := by
    rw [ayat_split_length, hc]
  simp [explode_row, hcond, hlen]

theorem C1_witness :
    toUpperL (recOf (("PASAL").data) (("tanpa penanda").data)).section_type
        = ("PASAL").data ∧
    ayatIsEmpty (recOf (("PASAL").data) (("tanpa penanda").data)) = true ∧
    countAyat (strip (recOf (("PASAL").data) (("tanpa penanda").data)).text) = 0 ∧
    explode_row (recOf (("PASAL").data) (("tanpa penanda").data)) =
      [recOf (("PASAL").data) (("tanpa penanda").data)] :=
  ⟨by decide, by decide, by decide,
   C1_unexploded_iff_zero_markers _ (by decide) (by decide) (by decide)⟩

/-- C10: a PASAL record with empty paragraph label whose body matches
the marker pattern at least once is always exploded: every emitted
record is an AYAT record, the original PASAL record is dropped, and if
every captured run is empty after trimming, nothing at all is emitted
for the article. -/
theorem C10_explosion_drops_original (r : Record)
    (hs : toUpperL r.section_type = ("PASAL").data)
    (ha : ayatIsEmpty r = true)
    (hc : 1 ≤ countAyat (strip r.text)) :
    (∀ s ∈ explode_row r, s.section_type = ("AYAT").data) ∧
    r ∉ explode_row r ∧
    ((∀ pr ∈ ayatPairs (ayat_split (strip r.text)).tail, strip pr.2 = []) →
      explode_row r = []) := by
  have hcond : (toUpperL r.section_type == ("PASAL").data && ayatIsEmpty r) = true := by
    rw [Bool.and_eq_true, beq_iff_eq]
    exact ⟨hs, ha⟩
  have hlen : 1 < (ayat_split (strip r.text)).length := by
    rw [ayat_split_length]
    omega
  have hrow : explode_row r =
      (ayatPairs (ayat_split (strip r.text)).tail).filterMap (fun pr =>
        if (strip pr.2).isEmpty then none
        else some { r with section_type := ("AYAT").data,
                           ayat_number := some (strip pr.1), text := strip pr.2 }) := by
    simp [explode_row, hcond, hlen]
  have hay : ∀ s ∈ explode_row r, s.section_type = ("AYAT").data := by
    intro s hsmem
    rw [hrow, List.mem_filterMap] at hsmem
    obtain ⟨pr, _, hpr⟩ := hsmem
    by_cases hemp : (strip pr.2).isEmpty
    · simp [hemp] at hpr
    · simp [hemp] at hpr
      rw [← hpr]
  refine ⟨hay, ?_, ?_⟩
  · intro hmem
    have := hay r hmem
    rw [this] at hs
    exact absurd hs (by decide)
  · intro hall
    rw [hrow, List.filterMap_eq_nil_iff]
    intro pr hpr
    simp [hall pr hpr]

theorem C10_witness :
    toUpperL (recOf (("PASAL").data) (("(1)").data)).section_type = ("PASAL").data ∧
    ayatIsEmpty (recOf (("PASAL").data) (("(1)").data)) = true ∧
    1 ≤ countAyat (strip (recOf (("PASAL").data) (("(1)").data)).text) ∧
    explode_row (recOf (("PASAL").data) (("(1)").data)) = [] :=
  ⟨by decide, by decide, by decide,
   (C10_explosion_drops_original _ (by decide) (by decide) (by decide)).2.2 (by decide)⟩

/-- C6: for every ArticleBlock and metadata record, RecordBuilder
produces exactly one record with section_type PASAL, no paragraph
label, title "Pasal " followed by the block label, enclosing
book/chapter/part labels copied from the block, body equal to
TextNormalizer applied to the block text, and the metadata carried
over. -/
theorem C6_record_builder (cfg : Cfg) (blk : Block) :
    (mk_record cfg blk).section_type = ("PASAL").data ∧
    (mk_record cfg blk).ayat_number = none ∧
    (mk_record cfg blk).title = ("Pasal ").data ++ blk.pasal_number ∧
    (mk_record cfg blk).pasal_number = blk.pasal_number ∧
    (mk_record cfg blk).buku = blk.buku.map Tag.label ∧
    (mk_record cfg blk).bab = blk.bab.map Tag.label ∧
    (mk_record cfg blk).bagian = blk.bagian.map Tag.label ∧
    (mk_record cfg blk).text = minimal_clean blk.text ∧
    (mk_record cfg blk).uu_code = cfg.uu_code ∧
    (mk_record cfg blk).uu_name = cfg.uu_name ∧
    (mk_record cfg blk).uu_number = cfg.uu_number ∧
    (mk_record cfg blk).year = cfg.year ∧
    (mk_record cfg blk).valid_from = cfg.valid_from ∧
    (mk_record cfg blk).valid_to = cfg.valid_to ∧
    (mk_record cfg blk).source_file = cfg.source_file ∧
    ∀ t : List Char,
      ((detect_structure t).map (mk_record cfg)).length = (detect_structure t).length := by
  refine ⟨rfl, rfl, rfl, rfl, rfl, rfl, rfl, rfl, rfl, rfl, rfl, rfl, rfl, rfl, rfl,
    fun t => List.length_map _ _⟩

/-- C7: the ExplanatoryFilter retains exactly the records whose title
does not contain "penjelasan" case-insensitively and whose trimmed,
lowercased body does not start with "cukup jelas"; retained records
form an order-preserving sublist of the input. -/
theorem C7_drop_penjelasan (df : List Record) (r : Record) :
    (r ∈ drop_penjelasan df ↔ r ∈ df ∧
      ¬(containsSub (("penjelasan").data) (toLowerL r.title) = true ∨
        (("cukup jelas").data).isPrefixOf (toLowerL (strip r.text)) = true)) ∧
    (drop_penjelasan df).Sublist df := by
  constructor
  · rw [drop_penjelasan, List.mem_filter]
    simp only [is_penjelasan, Bool.not_eq_true', Bool.or_eq_false_iff]
    constructor
    · rintro ⟨hmem, h1, h2⟩
      exact ⟨hmem, by simp [h1, h2]⟩
    · rintro ⟨hmem, h⟩
      push_neg at h
      exact ⟨hmem, by simp [h.2], by simp [h.1]⟩
  · exact List.filter_sublist _

/-- C8: the pipeline is total by construction and degrades gracefully:
empty or whitespace-only input yields zero records, and text with zero
Article matches yields zero blocks and zero records. -/
theorem C8_graceful_degradation (cfg : Cfg) (t : List Char) :
    ((strip t).isEmpty = true → pipeline cfg t = []) ∧
    (pasalScan t = [] → detect_structure t = [] ∧ pipeline cfg t = []) := by
  constructor
  · intro h
    simp [pipeline, build_records_per_pdf, h, explode_ayat_rows, drop_penjelasan]
  · intro h
    have hd : detect_structure t = [] := by
      simp [detect_structure, h, blocksFrom]
    refine ⟨hd, ?_⟩
    have hb : build_records_per_pdf cfg t = [] := by
      rw [build_records_per_pdf, hd]
      split <;> rfl
    simp [pipeline, hb, explode_ayat_rows, drop_penjelasan]

theorem C8_witness :
    (strip ([] : List Char)).isEmpty = true ∧ pipeline cfg0 [] = [] ∧
    pasalScan [] = [] ∧ detect_structure [] = [] :=
  ⟨by decide, (C8_graceful_degradation cfg0 []).1 (by decide), by decide,
   ((C8_graceful_degradation cfg0 []).2 (by decide)).1⟩

theorem nfkcChar_out (c : Char) :
    (∀ a ∈ nfkcChar c, nfkcChar a = [a]) ∧ (c = '\x00' ∨ '\x00' ∉ nfkcChar c) := by
  by_cases h0 : c = '０'
  · subst h0; exact ⟨by decide, Or.inr (by decide)⟩
  by_cases h1 : c = '１'
  · subst h1; exact ⟨by decide, Or.inr (by decide)⟩
  by_cases h2 : c = '２'
  · subst h2; exact ⟨by decide, Or.inr (by decide)⟩
  by_cases h3 : c = '３'
  · subst h3; exact ⟨by decide, Or.inr (by decide)⟩
  by_cases h4 : c = '４'
  · subst h4; exact ⟨by decide, Or.inr (by decide)⟩
  by_cases h5 : c = '５'
  · subst h5; exact ⟨by decide, Or.inr (by decide)⟩
  by_cases h6 : c = '６'
  · subst h6; exact ⟨by decide, Or.inr (by decide)⟩
  by_cases h7 : c = '７'
  · subst h7; exact ⟨by decide, Or.inr (by decide)⟩
  by_cases h8 : c = '８'
  · subst h8; exact ⟨by decide, Or.inr (by decide)⟩
  by_cases h9 : c = '９'
  · subst h9; exact ⟨by decide, Or.inr (by decide)⟩
  by_cases h10 : c = '…'
  · subst h10; exact ⟨by decide, Or.inr (by decide)⟩
  have hc : nfkcChar c = [c] := by
    simp only [nfkcChar, if_neg h0, if_neg h1, if_neg h2, if_neg h3, if_neg h4, if_neg h5,
      if_neg h6, if_neg h7, if_neg h8, if_neg h9, if_neg h10]
  constructor
  · intro a ha
    rw [hc, List.mem_singleton] at ha
    subst ha
    exact hc
  · by_cases hn : c = '\x00'
    · exact Or.inl hn
    · refine Or.inr fun hm => ?_
      rw [hc, List.mem_singleton] at hm
      exact hn hm.symm

/-- Characters fixed by the modelled NFKC map are unchanged. -/
theorem nfkcChar_self (c : Char) (h0 : ¬ c = '０') (h1 : ¬ c = '１') (h2 : ¬ c = '２')
    (h3 : ¬ c = '３') (h4 : ¬ c = '４') (h5 : ¬ c = '５') (h6 : ¬ c = '６')
    (h7 : ¬ c = '７') (h8 : ¬ c = '８') (h9 : ¬ c = '９') (h10 : ¬ c = '…') :
    nfkcChar c = [c] := by
  simp only [nfkcChar, if_neg h0, if_neg h1, if_neg h2, if_neg h3, if_neg h4, if_neg h5,
    if_neg h6, if_neg h7, if_neg h8, if_neg h9, if_neg h10]

theorem flatMap_nfkc_fix : ∀ l : List Char,
    (∀ a ∈ l, nfkcChar a = [a]) → l.flatMap nfkcChar = l := by
  intro l
  induction l with
  | nil => intro _; rfl
  | cons a as iha =>
    intro h
    rw [List.flatMap_cons, h a (by simp), iha (fun b hb => h b (by simp [hb]))]
    rfl

theorem filter_nul_nfkc (t : List Char) :
    (nfkc t).filter (fun c => c ≠ '\x00') = nfkc (t.filter (fun c => c ≠ '\x00')) := by
  induction t with
  | nil => rfl
  | cons c rest ih =>
    simp only [nfkc, List.flatMap_cons, List.filter_append] at *
    by_cases h : c = '\x00'
    · subst h
      rw [show nfkcChar '\x00' = ['\x00'] from by decide]
      rw [List.filter_cons_of_neg (by decide), ih]
      rfl
    · have h1 : (nfkcChar c).filter (fun c => c ≠ '\x00') = nfkcChar c := by
        rw [List.filter_eq_self]
        intro a ha
        rcases (nfkcChar_out c).2 with hc | hc
        · exact absurd hc h
        · simp only [decide_eq_true_eq]
          intro he
          exact hc (he ▸ ha)
      rw [h1, List.filter_cons_of_pos (by simpa using h), List.flatMap_cons, ih]

theorem nfkc_idem (t : List Char) : nfkc (nfkc t) = nfkc t := by
  induction t with
  | nil => rfl
  | cons c rest ih =>
    simp only [nfkc, List.flatMap_cons, List.flatMap_append] at *
    rw [ih]
    congr 1
    exact flatMap_nfkc_fix _ (nfkcChar_out c).1

/-- C9 counterexample: minimal_clean replaces the fullwidth digit one
(a compatibility character that canonical composition leaves fixed) by
the ASCII digit one, so its normalization step performs compatibility
mapping. -/
theorem C9_counterexample :
    minimal_clean (("１").data) = ("1").data ∧ ("１").data ≠ ("1").data :=
  ⟨by decide, by decide⟩

/-- C9 (amended): step 2 of TextNormalizer applies compatibility
composition (NFKC): pre-normalizing the input with the modelled NFKC
map never changes the result of minimal_clean, and compatibility
characters such as fullwidth digits are replaced by their
compatibility equivalents. -/
theorem C9_nfkc_normalization (t : List Char) :
    minimal_clean (nfkc t) = minimal_clean t := by
  show strip (collapseSp (collapseNl (rstripLines (ellipsisSub (joinHyphen
      (nfkc ((nfkc t).filter (fun c => c ≠ '\x00')))))))) = _
  rw [filter_nul_nfkc, nfkc_idem]
  rfl

theorem explode_row_mem (r0 r : Record) (h : r ∈ explode_row r0) :
    r = r0 ∨ (r.section_type = ("AYAT").data ∧ r.text ≠ []) := by
  simp only [explode_row] at h
  split at h
  · split at h
    · rw [List.mem_filterMap] at h
      obtain ⟨pr, _, hg⟩ := h
      by_cases he : (strip pr.2).isEmpty
      · simp [he] at hg
      · simp only [he, Bool.false_eq_true, ite_false, Option.some.injEq] at hg
        refine Or.inr ⟨?_, ?_⟩
        · rw [← hg]
        · rw [← hg]
          simpa using he
    · exact Or.inl (List.mem_singleton.mp h)
  · exact Or.inl (List.mem_singleton.mp h)

theorem build_records_section (cfg : Cfg) (t : List Char) (r0 : Record)
    (h : r0 ∈ build_records_per_pdf cfg t) : r0.section_type = ("PASAL").data := by
  unfold build_records_per_pdf at h
  split at h
  · simp at h
  · rw [List.mem_map] at h
    obtain ⟨blk, _, hb⟩ := h
    rw [← hb]
    rfl

/-- C5 counterexample: on the document "Pasal 1\nPasal 2" the pipeline
emits two records whose body text is empty — a record whose body is
empty after all transforms (an Article whose block text is empty once
the header line is stripped) is emitted rather than dropped. -/
theorem C5_counterexample :
    (pipeline cfg0 (("Pasal 1\nPasal 2").data)).map Record.text = [[], []] ∧
    pipeline cfg0 (("Pasal 1\nPasal 2").data) ≠ [] :=
  ⟨by decide, by decide⟩

/-- C5 (amended): every PARAGRAPH (AYAT) record in the final output
has non-empty body text — the exploder drops empty runs — but ARTICLE
records with empty body are not dropped and can reach the output. -/
theorem C5_ayat_records_nonempty (cfg : Cfg) (t : List Char) (r : Record)
    (hmem : r ∈ pipeline cfg t) (hay : r.section_type = ("AYAT").data) :
    r.text ≠ [] := by
  have h1 : r ∈ explode_ayat_rows (build_records_per_pdf cfg t) :=
    List.mem_of_mem_filter hmem
  rw [explode_ayat_rows, List.mem_flatMap] at h1
  obtain ⟨r0, hr0, hr⟩ := h1
  rcases explode_row_mem r0 r hr with he | he
  · exfalso
    have hsec := build_records_section cfg t r0 hr0
    rw [he, hsec] at hay
    exact absurd hay (by decide)
  · exact he.2

theorem C5_witness :
    recC5w ∈ pipeline cfg0 (("Pasal 1\n(1) a\n(2) b").data) ∧
    recC5w.section_type = ("AYAT").data ∧ recC5w.text ≠ [] :=
  ⟨by decide, by decide,
   C5_ayat_records_nonempty cfg0 (("Pasal 1\n(1) a\n(2) b").data) recC5w
     (by decide) (by decide)⟩

theorem pasalAfter_nil : pasalAfter ([] : List Char) = none := rfl

theorem tryPasalAt_lt (t : List Char) (p : Nat) (x : Nat × List Char)
    (h : tryPasalAt t p = some x) : p < t.length := by
  by_contra hge
  push_neg at hge
  have hdrop : t.drop p = [] := List.drop_eq_nil_of_le hge
  unfold tryPasalAt at h
  split at h
  · rw [hdrop, pasalAfter_nil] at h
    exact absurd h (by simp)
  · exact absurd h (by simp)

theorem pasalScanF_mem (f : Nat) : ∀ (t : List Char) (p : Nat) (q : Nat × Nat × List Char),
    q ∈ pasalScanF f t p → p ≤ q.1 ∧ tryPasalAt t q.1 = some (q.2.1, q.2.2) := by
  induction f with
  | zero => intro t p q h; simp [pasalScanF] at h
  | succ f ih =>
    intro t p q h
    simp only [pasalScanF] at h
    split at h
    · simp at h
    · cases hm : tryPasalAt t p with
      | some x =>
        rw [hm] at h
        rcases List.mem_cons.mp h with he | hrest
        · subst he
          exact ⟨le_refl _, hm⟩
        · have := ih t (max x.1 (p + 1)) q hrest
          refine ⟨?_, this.2⟩
          have h2 := this.1
          have h3 : p + 1 ≤ max x.1 (p + 1) := le_max_right _ _
          omega
      | none =>
        rw [hm] at h
        have := ih t (p + 1) q h
        exact ⟨by omega, this.2⟩

theorem pasalScanF_chain (f : Nat) : ∀ (t : List Char) (p : Nat),
    List.Chain' (fun a b : Nat × Nat × List Char => a.1 < b.1) (pasalScanF f t p) := by
  induction f with
  | zero => intro t p; simp [pasalScanF]
  | succ f ih =>
    intro t p
    simp only [pasalScanF]
    split
    · exact List.chain'_nil
    · cases hm : tryPasalAt t p with
      | some x =>
        refine List.chain'_cons'.mpr ⟨?_, ih t (max x.1 (p + 1))⟩
        intro y hy
        have hymem : y ∈ pasalScanF f t (max x.1 (p + 1)) := List.mem_of_mem_head? hy
        have := (pasalScanF_mem f t (max x.1 (p + 1)) y hymem).1
        have h3 : p + 1 ≤ max x.1 (p + 1) := le_max_right _ _
        show p < y.1
        omega
      | none => exact ih t (p + 1)

theorem pasalScan_starts_chain (t : List Char) :
    List.Chain' (· < ·) ((pasalScan t).map (fun m => m.1)) := by
  rw [List.chain'_map]
  exact pasalScanF_chain (t.length + 1) t 0

theorem pasalScan_starts_lt (t : List Char) :
    ∀ s ∈ (pasalScan t).map (fun m => m.1), s < t.length := by
  intro s hs
  rw [List.mem_map] at hs
  obtain ⟨q, hq, he⟩ := hs
  have := (pasalScanF_mem (t.length + 1) t 0 q hq).2
  rw [← he]
  exact tryPasalAt_lt t q.1 _ this

theorem spansOf_chain (ss : List Nat) (n : Nat) (h : List.Chain' (· < ·) ss) :
    List.Chain' (fun a b : Nat × Nat => a.2 = b.1 ∧ a.1 < b.1) (spansOf ss n) := by
  induction ss with
  | nil => simp [spansOf]
  | cons s rest ih =>
    cases rest with
    | nil => simp [spansOf]
    | cons s2 rest2 =>
      rw [show spansOf (s :: s2 :: rest2) n = (s, s2) :: spansOf (s2 :: rest2) n from rfl]
      rw [List.chain'_cons] at h
      refine List.chain'_cons'.mpr ⟨?_, ih h.2⟩
      intro y hy
      have hh : (spansOf (s2 :: rest2) n).head?.map Prod.fst = some s2 := by
        cases rest2 <;> rfl
      rw [Option.mem_def] at hy
      rw [hy] at hh
      simp at hh
      exact ⟨hh.symm, by rw [hh]; exact h.1⟩

theorem spansOf_mem (ss : List Nat) (n : Nat) (h : List.Chain' (· < ·) ss)
    (hb : ∀ s ∈ ss, s < n) : ∀ sp ∈ spansOf ss n, sp.1 < sp.2 ∧ sp.2 ≤ n := by
  induction ss with
  | nil => simp [spansOf]
  | cons s rest ih =>
    cases rest with
    | nil =>
      intro sp hsp
      rw [show spansOf [s] n = [(s, n)] from rfl, List.mem_singleton] at hsp
      subst hsp
      exact ⟨hb s (by simp), le_refl n⟩
    | cons s2 rest2 =>
      intro sp hsp
      rw [show spansOf (s :: s2 :: rest2) n = (s, s2) :: spansOf (s2 :: rest2) n from rfl,
        List.mem_cons] at hsp
      rw [List.chain'_cons] at h
      rcases hsp with he | hmem
      · subst he
        refine ⟨h.1, le_of_lt (hb s2 (by simp))⟩
      · exact ih h.2 (fun a ha => hb a (by simp [ha])) sp hmem

theorem spansOf_ne_nil (ss : List Nat) (n : Nat) (h : ss ≠ []) : spansOf ss n ≠ [] := by
  cases ss with
  | nil => exact absurd rfl h
  | cons s rest => cases rest <;> simp [spansOf]

theorem spansOf_last (ss : List Nat) (n : Nat) :
    ∀ sp : Nat × Nat, (spansOf ss n).getLast? = some sp → sp.2 = n := by
  induction ss with
  | nil => intro sp h; simp [spansOf] at h
  | cons s rest ih =>
    cases rest with
    | nil =>
      intro sp h
      rw [show spansOf [s] n = [(s, n)] from rfl, List.getLast?_singleton] at h
      injection h with h
      rw [← h]
    | cons s2 rest2 =>
      intro sp h
      rw [show spansOf (s :: s2 :: rest2) n = (s, s2) :: spansOf (s2 :: rest2) n from rfl] at h
      have hne : spansOf (s2 :: rest2) n ≠ [] := spansOf_ne_nil _ _ (by simp)
      cases hsp : spansOf (s2 :: rest2) n with
      | nil => exact absurd hsp hne
      | cons a as =>
        rw [hsp, List.getLast?_cons_cons] at h
        exact ih sp (by rw [hsp]; exact h)

theorem spansOf_head (ss : List Nat) (n : Nat) :
    (spansOf ss n).head?.map Prod.fst = ss.head? := by
  match ss with
  | [] => rfl
  | [s] => rfl
  | s :: s2 :: rest => rfl

/-- C4: the block spans of detect_structure are non-overlapping,
ordered by strictly ascending start offset and contiguous: each span
ends where the next begins, every span is non-empty and lies inside
the document, the last span ends at document end, and the first span
begins at the first Article match (text before it is in no block). -/
theorem C4_blocks_partition (t : List Char) :
    List.Chain' (fun a b : Nat × Nat => a.2 = b.1 ∧ a.1 < b.1) (pasal_spans t) ∧
    (∀ sp ∈ pasal_spans t, sp.1 < sp.2 ∧ sp.2 ≤ t.length) ∧
    (∀ sp : Nat × Nat, (pasal_spans t).getLast? = some sp → sp.2 = t.length) ∧
    (pasal_spans t).head?.map Prod.fst = ((pasalScan t).map (fun m => m.1)).head? := by
  have hchain := pasalScan_starts_chain t
  have hlt := pasalScan_starts_lt t
  exact ⟨spansOf_chain _ _ hchain, spansOf_mem _ _ hchain hlt,
    spansOf_last _ _, spansOf_head _ _⟩

theorem C4_witness :
    ((8, 15) : Nat × Nat).2 = (("Pasal 1\nPasal 2").data).length ∧
    List.Chain' (fun a b : Nat × Nat => a.2 = b.1 ∧ a.1 < b.1)
      (pasal_spans (("Pasal 1\nPasal 2").data)) ∧
    (0 < 8 ∧ 8 ≤ (("Pasal 1\nPasal 2").data).length) :=
  ⟨(C4_blocks_partition (("Pasal 1\nPasal 2").data)).2.2.1 (8, 15) (by decide),
   (C4_blocks_partition (("Pasal 1\nPasal 2").data)).1,
   (C4_blocks_partition (("Pasal 1\nPasal 2").data)).2.1 (0, 8) (by decide)⟩

theorem inert_spec (c : Char) (h : inertC c = true) :
    isWs c = false ∧ ¬ c = '-' ∧ ¬ c = '.' ∧ ¬ c = '\x00' ∧ nfkcChar c = [c] := by
  simp only [inertC, Bool.and_eq_true, Bool.not_eq_true', decide_eq_false_iff_not,
    beq_iff_eq] at h
  exact ⟨h.1.1.1.1, h.1.1.1.2, h.1.1.2, h.1.2, h.2⟩

theorem inert_not_nl (c : Char) (h : inertC c = true) : ¬ c = '\n' := fun he => by
  have := (inert_spec c h).1
  rw [he] at this
  exact absurd this (by decide)

theorem inert_not_spTab (c : Char) (h : inertC c = true) : isSpTab c = false := by
  have hws := (inert_spec c h).1
  simp only [isWs, Bool.or_eq_false_iff] at hws
  simp only [isSpTab, Bool.or_eq_false_iff]
  exact ⟨hws.1.1.1.1.1, hws.1.1.1.1.2⟩

theorem infix_append_left (x p l : List Char) (h : p <:+: l) : p <:+: x ++ l := by
  obtain ⟨a, b, rfl⟩ := h
  exact ⟨x ++ a, b, by simp⟩

theorem infix_of_cons_ne (p : List Char) (c : Char) (r : List Char) (hne : p ≠ [])
    (hh : p.head? ≠ some c) (h : p <:+: c :: r) : p <:+: r := by
  obtain ⟨a, b, hab⟩ := h
  cases a with
  | nil =>
    exfalso
    cases p with
    | nil => exact hne rfl
    | cons ph pt =>
      rw [List.nil_append, List.cons_append] at hab
      injection hab with h1 _
      exact hh (by rw [List.head?_cons, h1])
  | cons a0 a1 =>
    rw [List.cons_append] at hab
    injection hab with _ h2
    exact ⟨a1, b, h2⟩

theorem dropWhile_append_stop (q : Char → Bool) (a x : List Char)
    (hx : ∀ c ∈ x.head?, q c = false) :
    (a ++ x).dropWhile q = a.dropWhile q ++ x := by
  induction a with
  | nil =>
    cases x with
    | nil => rfl
    | cons c x2 =>
      simp only [List.nil_append, List.dropWhile_nil]
      rw [List.dropWhile_cons, if_neg]
      rw [hx c rfl]
      simp
  | cons a0 a1 ih =>
    by_cases hq : q a0 = true
    · rw [List.cons_append, List.dropWhile_cons, if_pos (by rw [hq]),
        List.dropWhile_cons, if_pos (by rw [hq]), ih]
    · rw [List.cons_append, List.dropWhile_cons, if_neg (by rw [Bool.not_eq_true] at hq; rw [hq]; simp),
        List.dropWhile_cons, if_neg (by rw [Bool.not_eq_true] at hq; rw [hq]; simp)]
      simp

theorem infix_dropWhile (q : Char → Bool) (p l : List Char) (hne : p ≠ [])
    (hq : ∀ c ∈ p.head?, q c = false) (h : p <:+: l) : p <:+: l.dropWhile q := by
  obtain ⟨a, b, rfl⟩ := h
  rw [List.append_assoc, dropWhile_append_stop q a (p ++ b) ?hx]
  · exact ⟨a.dropWhile q, b, by rw [List.append_assoc]⟩
  · intro c hc
    apply hq
    cases p with
    | nil => exact absurd rfl hne
    | cons p0 p1 => simpa using hc

theorem drop_len_takeWhile (q : Char → Bool) (l : List Char) :
    l.drop ((l.takeWhile q).length) = l.dropWhile q := by
  induction l with
  | nil => rfl
  | cons c rest ih =>
    rw [List.takeWhile_cons, List.dropWhile_cons]
    by_cases hq : q c = true
    · rw [if_pos (by rw [hq]), if_pos (by rw [hq]), List.length_cons,
        List.drop_succ_cons, ih]
    · rw [Bool.not_eq_true] at hq
      rw [if_neg (by rw [hq]; simp), if_neg (by rw [hq]; simp)]
      rfl

theorem jhF_transparent (q : List Char) : ∀ (f : Nat) (b : List Char),
    (∀ c ∈ q, inertC c = true) → jhF f (q ++ b) = q ++ jhF (f - q.length) b := by
  induction q with
  | nil => intro f b _; simp
  | cons c q1 ih =>
    intro f b hin
    cases f with
    | zero => simp [jhF]
    | succ f1 =>
      have hc := inert_spec c (hin c (by simp))
      rw [List.cons_append]
      show (if c = '-' ∧ (q1 ++ b).head? = some '\n' then _ else c :: jhF f1 (q1 ++ b)) = _
      rw [if_neg (fun hh => hc.2.1 hh.1)]
      rw [ih f1 b (fun d hd => hin d (by simp [hd]))]
      rw [List.length_cons, Nat.succ_sub_succ, List.cons_append]

theorem jhF_inf (p : List Char) (hne : p ≠ [])
    (hin : ∀ c ∈ p, inertC c = true) :
    ∀ (f : Nat) (l : List Char), l.length < f → p <:+: l → p <:+: jhF f l := by
  obtain ⟨ph, pt, hp⟩ : ∃ ph pt, p = ph :: pt := by
    cases p with
    | nil => exact absurd rfl hne
    | cons x y => exact ⟨x, y, rfl⟩
  have hphin := inert_spec ph (hin ph (by simp [hp]))
  intro f
  induction f with
  | zero => intro l h0 _; exact absurd h0 (Nat.not_lt_zero _)
  | succ f ih =>
    intro l hlen hinf
    obtain ⟨a, b, hab⟩ := hinf
    cases a with
    | nil =>
      rw [List.nil_append] at hab
      subst hab
      rw [jhF_transparent p (f + 1) b hin]
      exact ⟨[], jhF (f + 1 - p.length) b, by simp⟩
    | cons a0 a1 =>
      rw [List.cons_append] at hab
      subst hab
      show p <:+: (if a0 = '-' ∧ (a1 ++ p ++ b).head? = some '\n' then
        jhF f ((a1 ++ p ++ b).tail.dropWhile isWs) else a0 :: jhF f (a1 ++ p ++ b))
      by_cases hcond : a0 = '-' ∧ (a1 ++ p ++ b).head? = some '\n'
      · rw [if_pos hcond]
        have hpinf : p <:+: a1 ++ p ++ b := ⟨a1, b, rfl⟩
        have h2 : p <:+: (a1 ++ p ++ b).tail := by
          cases hT : a1 ++ p ++ b with
          | nil => rw [hT] at hcond; exact absurd hcond.2 (by simp)
          | cons x0 x1 =>
            rw [hT] at hcond
            have hx0 : x0 = '\n' := by
              have h4 := hcond.2
              rw [List.head?_cons, Option.some.injEq] at h4
              exact h4
            refine infix_of_cons_ne p x0 x1 hne ?_ (hT ▸ hpinf)
            rw [hp, List.head?_cons, hx0]
            intro hh
            rw [Option.some.injEq] at hh
            exact inert_not_nl ph (hin ph (by simp [hp])) hh
        have h3 : p <:+: (a1 ++ p ++ b).tail.dropWhile isWs := by
          refine infix_dropWhile isWs p _ hne ?_ h2
          intro c hc
          rw [hp, List.head?_cons] at hc
          rw [Option.mem_def, Option.some.injEq] at hc
          rw [← hc]
          exact hphin.1
        refine ih _ ?_ h3
        have l1 := (List.dropWhile_sublist isWs (l := (a1 ++ p ++ b).tail)).length_le
        have l2 : (a1 ++ p ++ b).tail.length = (a1 ++ p ++ b).length - 1 :=
          List.length_tail _
        simp only [List.cons_append, List.length_cons, List.length_append] at hlen l2 ⊢
        omega
      · rw [if_neg hcond]
        have hr := ih (a1 ++ p ++ b)
          (by simp only [List.cons_append, List.length_cons, List.length_append] at hlen ⊢; omega)
          ⟨a1, b, rfl⟩
        exact List.infix_cons hr

theorem joinHyphen_inf (p l : List Char) (hne : p ≠ [])
    (hin : ∀ c ∈ p, inertC c = true) (h : p <:+: l) : p <:+: joinHyphen l :=
  jhF_inf p hne hin (l.length + 1) l (by omega) h

theorem tryEllipsis_none (c : Char) (r : List Char) (hws : isWs c = false)
    (hdot : ¬ c = '.') : tryEllipsis (c :: r) = none := by
  have hcond : (((c :: r).dropWhile isWs).head? = some '.') → False := by
    rw [List.dropWhile_cons, if_neg (by rw [hws]; simp), List.head?_cons]
    intro hh
    rw [Option.some.injEq] at hh
    exact hdot hh
  unfold tryEllipsis
  rw [if_neg hcond]

theorem tryEllipsis_length (l r : List Char) (hm : tryEllipsis l = some r) :
    r.length < l.length := by
  unfold tryEllipsis at hm
  split at hm
  · split at hm
    · split at hm
      · rw [Option.some.injEq] at hm
        subst hm
        rename_i h1 h2 h3
        have d0 := (List.dropWhile_sublist isWs (l := l)).length_le
        have n1 : l.dropWhile isWs ≠ [] := by intro he; rw [he] at h1; exact absurd h1 (by simp)
        have t1 : (l.dropWhile isWs).tail.length = (l.dropWhile isWs).length - 1 :=
          List.length_tail _
        have d1 := (List.dropWhile_sublist isWs (l := (l.dropWhile isWs).tail)).length_le
        have t2 := List.length_tail ((l.dropWhile isWs).tail.dropWhile isWs)
        have d2 := (List.dropWhile_sublist isWs
          (l := ((l.dropWhile isWs).tail.dropWhile isWs).tail)).length_le
        have t3 := List.length_tail (((l.dropWhile isWs).tail.dropWhile isWs).tail.dropWhile isWs)
        have d3 := (List.dropWhile_sublist isWs
          (l := (((l.dropWhile isWs).tail.dropWhile isWs).tail.dropWhile isWs).tail)).length_le
        have hlen1 : 1 ≤ (l.dropWhile isWs).length := by
          cases hx : l.dropWhile isWs with
          | nil => exact absurd hx n1
          | cons y ys => simp
        omega
      · exact absurd hm (by simp)
    · exact absurd hm (by simp)
  · exact absurd hm (by simp)

theorem tryEllipsis_inf (p : List Char) (hne : p ≠ [])
    (hws : ∀ c ∈ p.head?, isWs c = false) (hdot : ∀ c ∈ p.head?, ¬ c = '.')
    (l r : List Char) (hm : tryEllipsis l = some r) (h : p <:+: l) : p <:+: r := by
  have step : ∀ x : List Char, (x.dropWhile isWs).head? = some '.' → p <:+: x →
      p <:+: (x.dropWhile isWs).tail := by
    intro x hx hpx
    have h1 : p <:+: x.dropWhile isWs := infix_dropWhile isWs p x hne hws hpx
    cases hd : x.dropWhile isWs with
    | nil => rw [hd] at hx; exact absurd hx (by simp)
    | cons y ys =>
      rw [hd] at hx h1
      have hy : y = '.' := by rw [List.head?_cons, Option.some.injEq] at hx; exact hx
      refine infix_of_cons_ne p y ys hne ?_ h1
      intro hh
      cases p with
      | nil => exact absurd rfl hne
      | cons p0 p1 =>
        rw [List.head?_cons, Option.some.injEq] at hh
        exact (hdot p0 rfl) (by rw [hh, hy])
  unfold tryEllipsis at hm
  split at hm
  · split at hm
    · split at hm
      · rw [Option.some.injEq] at hm
        subst hm
        rename_i h1 h2 h3
        have s1 := step l h1 h
        have s2 := step _ h2 s1
        have s3 := step _ h3 s2
        exact infix_dropWhile isWs p _ hne hws s3
      · exact absurd hm (by simp)
    · exact absurd hm (by simp)
  · exact absurd hm (by simp)

theorem ellF_transparent (q : List Char) : ∀ (f : Nat) (b : List Char),
    (∀ c ∈ q, inertC c = true) → ellF f (q ++ b) = q ++ ellF (f - q.length) b := by
  induction q with
  | nil => intro f b _; simp
  | cons c q1 ih =>
    intro f b hin
    cases f with
    | zero => simp [ellF]
    | succ f1 =>
      have hc := inert_spec c (hin c (by simp))
      rw [List.cons_append]
      show (match tryEllipsis (c :: (q1 ++ b)) with
            | some r => '…' :: ellF f1 r
            | none => c :: ellF f1 (q1 ++ b)) = _
      rw [tryEllipsis_none c (q1 ++ b) hc.1 hc.2.2.1]
      rw [ih f1 b (fun d hd => hin d (by simp [hd]))]
      rw [List.length_cons, Nat.succ_sub_succ, List.cons_append]

theorem ellF_inf (p : List Char) (hne : p ≠ [])
    (hin : ∀ c ∈ p, inertC c = true) :
    ∀ (f : Nat) (l : List Char), l.length < f → p <:+: l → p <:+: ellF f l := by
  have hws : ∀ c ∈ p.head?, isWs c = false := by
    intro c hc
    exact (inert_spec c (hin c (List.mem_of_mem_head? hc))).1
  have hdot : ∀ c ∈ p.head?, ¬ c = '.' := by
    intro c hc
    exact (inert_spec c (hin c (List.mem_of_mem_head? hc))).2.2.1
  intro f
  induction f with
  | zero => intro l h0 _; exact absurd h0 (Nat.not_lt_zero _)
  | succ f ih =>
    intro l hlen hinf
    obtain ⟨a, b, hab⟩ := hinf
    cases a with
    | nil =>
      rw [List.nil_append] at hab
      subst hab
      rw [ellF_transparent p (f + 1) b hin]
      exact ⟨[], ellF (f + 1 - p.length) b, by simp⟩
    | cons a0 a1 =>
      rw [List.cons_append] at hab
      subst hab
      show p <:+: (match tryEllipsis (a0 :: (a1 ++ p ++ b)) with
            | some r => '…' :: ellF f r
            | none => a0 :: ellF f (a1 ++ p ++ b))
      have hpinf : p <:+: a0 :: (a1 ++ p ++ b) := ⟨a0 :: a1, b, by simp⟩
      cases hm : tryEllipsis (a0 :: (a1 ++ p ++ b)) with
      | some r =>
        have hr : p <:+: r := tryEllipsis_inf p hne hws hdot _ r hm hpinf
        have hl : r.length < f := by
          have := tryEllipsis_length _ r hm
          simp only [List.length_cons, List.length_append] at this hlen ⊢
          omega
        exact List.infix_cons (ih r hl hr)
      | none =>
        have hr := ih (a1 ++ p ++ b)
          (by simp only [List.cons_append, List.length_cons, List.length_append] at hlen ⊢; omega)
          ⟨a1, b, rfl⟩
        exact List.infix_cons hr

theorem ellipsisSub_inf (p l : List Char) (hne : p ≠ [])
    (hin : ∀ c ∈ p, inertC c = true) (h : p <:+: l) : p <:+: ellipsisSub l :=
  ellF_inf p hne hin (l.length + 1) l (by omega) h

theorem cnlF_transparent (q : List Char) : ∀ (f : Nat) (b : List Char),
    (∀ c ∈ q, inertC c = true) → cnlF f (q ++ b) = q ++ cnlF (f - q.length) b := by
  induction q with
  | nil => intro f b _; simp
  | cons c q1 ih =>
    intro f b hin
    cases f with
    | zero => simp [cnlF]
    | succ f1 =>
      have hc := inert_not_nl c (hin c (by simp))
      rw [List.cons_append]
      show (if c = '\n' then _ else c :: cnlF f1 (q1 ++ b)) = _
      rw [if_neg hc]
      rw [ih f1 b (fun d hd => hin d (by simp [hd]))]
      rw [List.length_cons, Nat.succ_sub_succ, List.cons_append]

theorem cnlF_inf (p : List Char) (hne : p ≠ [])
    (hin : ∀ c ∈ p, inertC c = true) :
    ∀ (f : Nat) (l : List Char), l.length < f → p <:+: l → p <:+: cnlF f l := by
  have hq : ∀ c ∈ p.head?, (fun d => decide (d = '\n')) c = false := by
    intro c hc
    simp only [decide_eq_false_iff_not]
    exact inert_not_nl c (hin c (List.mem_of_mem_head? hc))
  intro f
  induction f with
  | zero => intro l h0 _; exact absurd h0 (Nat.not_lt_zero _)
  | succ f ih =>
    intro l hlen hinf
    obtain ⟨a, b, hab⟩ := hinf
    cases a with
    | nil =>
      rw [List.nil_append] at hab
      subst hab
      rw [cnlF_transparent p (f + 1) b hin]
      exact ⟨[], cnlF (f + 1 - p.length) b, by simp⟩
    | cons a0 a1 =>
      rw [List.cons_append] at hab
      subst hab
      show p <:+: (if a0 = '\n' then
        (if 4 ≤ ((a1 ++ p ++ b).takeWhile (fun d => d = '\n')).length + 1 then ['\n', '\n']
         else List.replicate (((a1 ++ p ++ b).takeWhile (fun d => d = '\n')).length + 1) '\n')
          ++ cnlF f ((a1 ++ p ++ b).drop ((a1 ++ p ++ b).takeWhile (fun d => d = '\n')).length)
        else a0 :: cnlF f (a1 ++ p ++ b))
      by_cases hcond : a0 = '\n'
      · rw [if_pos hcond]
        have h2 : p <:+: (a1 ++ p ++ b).drop
            ((a1 ++ p ++ b).takeWhile (fun d => d = '\n')).length := by
          rw [drop_len_takeWhile]
          exact infix_dropWhile _ p _ hne hq ⟨a1, b, rfl⟩
        refine infix_append_left _ p _ (ih _ ?_ h2)
        have l1 := List.length_drop ((a1 ++ p ++ b).takeWhile (fun d => d = '\n')).length
          (a1 ++ p ++ b)
        simp only [List.cons_append, List.length_cons, List.length_append] at hlen l1 ⊢
        omega
      · rw [if_neg hcond]
        have hr := ih (a1 ++ p ++ b)
          (by simp only [List.cons_append, List.length_cons, List.length_append] at hlen ⊢; omega)
          ⟨a1, b, rfl⟩
        exact List.infix_cons hr

theorem collapseNl_inf (p l : List Char) (hne : p ≠ [])
    (hin : ∀ c ∈ p, inertC c = true) (h : p <:+: l) : p <:+: collapseNl l :=
  cnlF_inf p hne hin (l.length + 1) l (by omega) h

theorem cspF_transparent (q : List Char) : ∀ (f : Nat) (b : List Char),
    (∀ c ∈ q, inertC c = true) → cspF f (q ++ b) = q ++ cspF (f - q.length) b := by
  induction q with
  | nil => intro f b _; simp
  | cons c q1 ih =>
    intro f b hin
    cases f with
    | zero => simp [cspF]
    | succ f1 =>
      have hc := inert_not_spTab c (hin c (by simp))
      rw [List.cons_append]
      show (if isSpTab c then _ else c :: cspF f1 (q1 ++ b)) = _
      rw [if_neg (by rw [hc]; simp)]
      rw [ih f1 b (fun d hd => hin d (by simp [hd]))]
      rw [List.length_cons, Nat.succ_sub_succ, List.cons_append]

theorem cspF_inf (p : List Char) (hne : p ≠ [])
    (hin : ∀ c ∈ p, inertC c = true) :
    ∀ (f : Nat) (l : List Char), l.length < f → p <:+: l → p <:+: cspF f l := by
  have hq : ∀ c ∈ p.head?, isSpTab c = false := by
    intro c hc
    exact inert_not_spTab c (hin c (List.mem_of_mem_head? hc))
  intro f
  induction f with
  | zero => intro l h0 _; exact absurd h0 (Nat.not_lt_zero _)
  | succ f ih =>
    intro l hlen hinf
    obtain ⟨a, b, hab⟩ := hinf
    cases a with
    | nil =>
      rw [List.nil_append] at hab
      subst hab
      rw [cspF_transparent p (f + 1) b hin]
      exact ⟨[], cspF (f + 1 - p.length) b, by simp⟩
    | cons a0 a1 =>
      rw [List.cons_append] at hab
      subst hab
      show p <:+: (if isSpTab a0 then
        (if 2 ≤ ((a1 ++ p ++ b).takeWhile isSpTab).length + 1 then [' '] else [a0])
          ++ cspF f ((a1 ++ p ++ b).drop ((a1 ++ p ++ b).takeWhile isSpTab).length)
        else a0 :: cspF f (a1 ++ p ++ b))
      by_cases hcond : isSpTab a0
      · rw [if_pos hcond]
        have h2 : p <:+: (a1 ++ p ++ b).drop ((a1 ++ p ++ b).takeWhile isSpTab).length := by
          rw [drop_len_takeWhile]
          exact infix_dropWhile _ p _ hne hq ⟨a1, b, rfl⟩
        refine infix_append_left _ p _ (ih _ ?_ h2)
        have l1 := List.length_drop ((a1 ++ p ++ b).takeWhile isSpTab).length (a1 ++ p ++ b)
        simp only [List.cons_append, List.length_cons, List.length_append] at hlen l1 ⊢
        omega
      · rw [if_neg hcond]
        have hr := ih (a1 ++ p ++ b)
          (by simp only [List.cons_append, List.length_cons, List.length_append] at hlen ⊢; omega)
          ⟨a1, b, rfl⟩
        exact List.infix_cons hr

theorem collapseSp_inf (p l : List Char) (hne : p ≠ [])
    (hin : ∀ c ∈ p, inertC c = true) (h : p <:+: l) : p <:+: collapseSp l :=
  cspF_inf p hne hin (l.length + 1) l (by omega) h

theorem filter_nul_inf (p l : List Char) (hin : ∀ c ∈ p, inertC c = true)
    (h : p <:+: l) : p <:+: l.filter (fun c => c ≠ '\x00') := by
  obtain ⟨a, b, rfl⟩ := h
  rw [List.filter_append, List.filter_append]
  have hp : p.filter (fun c => c ≠ '\x00') = p := by
    rw [List.filter_eq_self]
    intro c hc
    simp only [decide_eq_true_eq]
    exact (inert_spec c (hin c hc)).2.2.2.1
  exact ⟨a.filter (fun c => c ≠ '\x00'), b.filter (fun c => c ≠ '\x00'), by rw [hp]⟩

theorem nfkc_inf (p l : List Char) (hin : ∀ c ∈ p, inertC c = true)
    (h : p <:+: l) : p <:+: nfkc l := by
  obtain ⟨a, b, rfl⟩ := h
  simp only [nfkc, List.flatMap_append]
  have hp : p.flatMap nfkcChar = p :=
    flatMap_nfkc_fix p (fun c hc => (inert_spec c (hin c hc)).2.2.2.2)
  exact ⟨a.flatMap nfkcChar, b.flatMap nfkcChar, by rw [hp]⟩

theorem prefix_line (p : List Char) : ∀ l : List Char, p ≠ [] → ('\n' ∉ p) → p <+: l →
    ∃ ln ls, splitNl l = ln :: ls ∧ p <+: ln := by
  induction p with
  | nil => intro l h; exact absurd rfl h
  | cons c p1 ih =>
    intro l _ hnl hpre
    obtain ⟨y, hy⟩ := hpre
    rw [List.cons_append] at hy
    subst hy
    have hc : ¬ c = '\n' := fun he => hnl (by rw [he]; simp)
    cases p1 with
    | nil =>
      rw [List.nil_append]
      show ∃ ln ls, (if c = '\n' then [] :: splitNl y else
        match splitNl y with
        | [] => [[c]]
        | l :: ls => (c :: l) :: ls) = ln :: ls ∧ [c] <+: ln
      rw [if_neg hc]
      cases hs : splitNl y with
      | nil => exact ⟨[c], [], rfl, List.prefix_refl _⟩
      | cons ln0 ls0 => exact ⟨c :: ln0, ls0, rfl, ⟨ln0, rfl⟩⟩
    | cons d p2 =>
      obtain ⟨ln, ls, hs, hpln⟩ := ih (d :: p2 ++ y) (by simp)
        (fun hm => hnl (by simp [hm])) ⟨y, rfl⟩
      refine ⟨c :: ln, ls, ?_, ?_⟩
      · show (if c = '\n' then [] :: splitNl (d :: p2 ++ y) else
          match splitNl (d :: p2 ++ y) with
          | [] => [[c]]
          | l :: ls => (c :: l) :: ls) = (c :: ln) :: ls
        rw [if_neg hc, hs]
      · obtain ⟨z, hz⟩ := hpln
        exact ⟨z, by rw [List.cons_append, hz]⟩

theorem infix_line (p : List Char) (hne : p ≠ []) (hnl : '\n' ∉ p) :
    ∀ l : List Char, p <:+: l → ∃ ln ∈ splitNl l, p <:+: ln := by
  intro l
  induction l with
  | nil =>
    intro h
    rw [List.infix_nil] at h
    exact absurd h hne
  | cons c rest ih =>
    intro hinf
    by_cases hc : c = '\n'
    · subst hc
      have h2 : p <:+: rest := by
        refine infix_of_cons_ne p '\n' rest hne ?_ hinf
        intro hh
        cases p with
        | nil => exact absurd rfl hne
        | cons p0 p1 =>
          rw [List.head?_cons, Option.some.injEq] at hh
          exact hnl (by rw [← hh]; simp)
      obtain ⟨ln, hmem, hpln⟩ := ih h2
      refine ⟨ln, ?_, hpln⟩
      show ln ∈ (if ('\n' : Char) = '\n' then [] :: splitNl rest else _)
      rw [if_pos rfl]
      exact List.mem_cons_of_mem _ hmem
    · obtain ⟨a, b, hab⟩ := hinf
      cases a with
      | nil =>
        rw [List.nil_append] at hab
        obtain ⟨ln, ls, hs, hpln⟩ := prefix_line p (c :: rest) hne hnl ⟨b, hab⟩
        exact ⟨ln, by rw [hs]; simp, hpln.isInfix⟩
      | cons a0 a1 =>
        rw [List.cons_append] at hab
        injection hab with h1 h2
        have h3 : p <:+: rest := by rw [← h2]; exact ⟨a1, b, rfl⟩
        obtain ⟨ln, hmem, hpln⟩ := ih h3
        cases hs : splitNl rest with
        | nil => rw [hs] at hmem; exact absurd hmem (by simp)
        | cons ln0 ls0 =>
          rw [hs] at hmem
          show ∃ ln ∈ (if c = '\n' then [] :: splitNl rest else
            match splitNl rest with
            | [] => [[c]]
            | l :: ls => (c :: l) :: ls), p <:+: ln
          rw [if_neg hc, hs]
          rcases List.mem_cons.mp hmem with he | hm2
          · subst he
            exact ⟨c :: ln, by simp, List.infix_cons hpln⟩
          · exact ⟨ln, by simp [hm2], hpln⟩

theorem infix_rstrip (p l : List Char) (hne : p ≠ [])
    (hlast : ∀ c ∈ p.getLast?, isWs c = false) (h : p <:+: l) : p <:+: rstrip l := by
  rw [← List.reverse_infix] at h
  have h2 : p.reverse <:+: l.reverse.dropWhile isWs := by
    refine infix_dropWhile isWs p.reverse l.reverse (by simpa using hne) ?_ h
    intro c hc
    apply hlast
    rw [← List.head?_reverse]
    exact hc
  rw [rstrip, ← List.reverse_reverse p]
  rw [List.reverse_infix]
  exact h2

theorem infix_strip (p l : List Char) (hne : p ≠ [])
    (hhead : ∀ c ∈ p.head?, isWs c = false)
    (hlast : ∀ c ∈ p.getLast?, isWs c = false) (h : p <:+: l) : p <:+: strip l :=
  infix_rstrip p _ hne hlast (infix_dropWhile isWs p l hne hhead h)

theorem mem_joinNl_inf (ln : List Char) : ∀ ls : List (List Char), ln ∈ ls →
    ln <:+: joinNl ls := by
  intro ls
  induction ls with
  | nil => intro h; exact absurd h (by simp)
  | cons hd tl ih =>
    intro h
    cases tl with
    | nil =>
      rw [List.mem_singleton] at h
      subst h
      exact List.infix_refl _
    | cons hd2 tl2 =>
      show ln <:+: hd ++ '\n' :: joinNl (hd2 :: tl2)
      rcases List.mem_cons.mp h with he | hm
      · subst he
        exact ⟨[], '\n' :: joinNl (hd2 :: tl2), by simp⟩
      · exact infix_append_left hd ln _ (List.infix_cons (ih hm))

theorem rstripLines_inf (p l : List Char) (hne : p ≠ [])
    (hin : ∀ c ∈ p, inertC c = true) (h : p <:+: l) : p <:+: rstripLines l := by
  have hnl : '\n' ∉ p := fun hm => inert_not_nl '\n' (hin '\n' hm) rfl
  obtain ⟨ln, hmem, hpln⟩ := infix_line p hne hnl l h
  have h2 : p <:+: rstrip ln := by
    refine infix_rstrip p ln hne ?_ hpln
    intro c hc
    exact (inert_spec c (hin c (List.mem_of_mem_getLast? hc))).1
  exact h2.trans (mem_joinNl_inf (rstrip ln) ((splitNl l).map rstrip)
    (List.mem_map_of_mem rstrip hmem))

theorem minimal_clean_inf (p t : List Char) (hne : p ≠ [])
    (hin : ∀ c ∈ p, inertC c = true) (h : p <:+: t) : p <:+: minimal_clean t := by
  have hhead : ∀ c ∈ p.head?, isWs c = false := fun c hc =>
    (inert_spec c (hin c (List.mem_of_mem_head? hc))).1
  have hlast : ∀ c ∈ p.getLast?, isWs c = false := fun c hc =>
    (inert_spec c (hin c (List.mem_of_mem_getLast? hc))).1
  show p <:+: strip (collapseSp (collapseNl (rstripLines (ellipsisSub (joinHyphen
    (nfkc (t.filter (fun c => c ≠ '\x00'))))))))
  exact infix_strip p _ hne hhead hlast (collapseSp_inf p _ hne hin (collapseNl_inf p _ hne hin
    (rstripLines_inf p _ hne hin (ellipsisSub_inf p _ hne hin (joinHyphen_inf p _ hne hin
    (nfkc_inf p _ hin (filter_nul_inf p _ hin h)))))))

theorem digit_inert (c : Char) (h : c.isDigit = true) : inertC c = true := by
  have hx : ∀ x : Char, x.isDigit = false → ¬ c = x := by
    intro x hxd he
    rw [he, hxd] at h
    exact absurd h (by simp)
  simp only [inertC, Bool.and_eq_true, Bool.not_eq_true', decide_eq_false_iff_not, beq_iff_eq]
  refine ⟨⟨⟨⟨?_, hx '-' (by decide)⟩, hx '.' (by decide)⟩, hx '\x00' (by decide)⟩, ?_⟩
  · by_contra hws
    rw [Bool.not_eq_false] at hws
    simp only [isWs, Bool.or_eq_true, decide_eq_true_eq] at hws
    rcases hws with ((((h1 | h1) | h1) | h1) | h1) | h1 <;> · subst h1; exact absurd h (by decide)
  · exact nfkcChar_self c (hx '０' (by decide)) (hx '１' (by decide)) (hx '２' (by decide))
      (hx '３' (by decide)) (hx '４' (by decide)) (hx '５' (by decide)) (hx '６' (by decide))
      (hx '７' (by decide)) (hx '８' (by decide)) (hx '９' (by decide)) (hx '…' (by decide))

/-- C2 counterexample: the substring "(  1)" of "a (  1) b" matches
the numbered-paragraph marker pattern of AYAT_SPLIT_RE (parenthesis,
optional whitespace, digits, optional whitespace, parenthesis), yet
minimal_clean collapses its double space, so the substring does not
survive unaltered in the output. -/
theorem C2_counterexample :
    isAyatMarkerStr (("(  1)").data) = true ∧
    (("(  1)").data) <:+: (("a (  1) b").data) ∧
    ¬ (("(  1)").data) <:+: minimal_clean (("a (  1) b").data) :=
  ⟨by decide, by decide, by decide⟩

/-- C2 (amended): every substring of the form "(" ++ digits ++ ")"
(the marker written without internal whitespace) survives
minimal_clean character-for-character: it is still an infix of the
output.  Markers with internal whitespace may be altered. -/
theorem C2_markers_survive (t ds : List Char) (hne : ds ≠ [])
    (hds : ∀ c ∈ ds, c.isDigit = true)
    (h : ('(' :: (ds ++ [')'])) <:+: t) :
    ('(' :: (ds ++ [')'])) <:+: minimal_clean t := by
  refine minimal_clean_inf _ t (by simp) ?_ h
  intro c hc
  rcases List.mem_cons.mp hc with he | hm
  · subst he; decide
  · rcases List.mem_append.mp hm with hd | hp
    · exact digit_inert c (hds c hd)
    · rw [List.mem_singleton] at hp
      subst hp
      decide

theorem C2_witness :
    (('(' :: ((("12").data) ++ [')'])) <:+: (("x (12) y").data)) ∧
    (('(' :: ((("12").data) ++ [')'])) <:+: minimal_clean (("x (12) y").data)) :=
  ⟨by decide,
   C2_markers_survive (("x (12) y").data) (("12").data) (by decide) (by decide) (by decide)⟩

/-- C3 counterexample: minimal_clean is not idempotent.  On "a- \nb"
the first pass strips the line-trailing blank, creating a hyphen
followed by a newline that only the second pass's hyphenation join
removes. -/
theorem C3_counterexample :
    minimal_clean (minimal_clean (("a- \nb").data)) ≠ minimal_clean (("a- \nb").data) ∧
    minimal_clean (("a- \nb").data) = ("a-\nb").data ∧
    minimal_clean (("a-\nb").data) = ("ab").data :=
  ⟨by decide, by decide, by decide⟩

theorem head?_dropWhile_not (q : Char → Bool) (l : List Char) :
    ∀ c ∈ (l.dropWhile q).head?, q c = false := by
  induction l with
  | nil => intro c hc; exact absurd hc (by simp)
  | cons a rest ih =>
    intro c hc
    rw [List.dropWhile_cons] at hc
    by_cases hq : q a = true
    · rw [if_pos hq] at hc
      exact ih c hc
    · rw [Bool.not_eq_true] at hq
      rw [if_neg (by rw [hq]; simp)] at hc
      rw [List.head?_cons, Option.mem_def, Option.some.injEq] at hc
      rw [hc] at hq
      exact hq

theorem dropWhile_eq_self_of (q : Char → Bool) (l : List Char)
    (h : ∀ c ∈ l.head?, q c = false) : l.dropWhile q = l := by
  cases l with
  | nil => rfl
  | cons a rest =>
    rw [List.dropWhile_cons, if_neg]
    rw [h a (by simp)]
    simp

theorem rstrip_eq_self (l : List Char) (h : LastOk l) : rstrip l = l := by
  rw [rstrip, dropWhile_eq_self_of isWs l.reverse, List.reverse_reverse]
  intro c hc
  rw [List.head?_reverse] at hc
  exact h c hc

theorem rstrip_lastOk (l : List Char) : LastOk (rstrip l) := by
  intro c hc
  rw [rstrip, List.getLast?_reverse] at hc
  exact head?_dropWhile_not isWs l.reverse c hc

theorem rstrip_pref (l : List Char) : rstrip l <+: l := by
  rw [rstrip, ← List.reverse_suffix]
  rw [List.reverse_reverse]
  exact List.dropWhile_suffix isWs

theorem strip_inf (l : List Char) : strip l <:+: l :=
  (rstrip_pref (lstrip l)).isInfix.trans (List.dropWhile_suffix isWs).isInfix

theorem prefix_head? (u w : List Char) (h : u <+: w) (hne : u ≠ []) :
    u.head? = w.head? := by
  obtain ⟨v, rfl⟩ := h
  cases u with
  | nil => exact absurd rfl hne
  | cons a u1 => rfl

theorem strip_firstOk (l : List Char) : FirstOk (strip l) := by
  intro c hc
  by_cases hne : strip l = []
  · rw [hne] at hc
    exact absurd hc (by simp)
  · rw [strip] at hc hne
    rw [prefix_head? _ _ (rstrip_pref (lstrip l)) hne] at hc
    exact head?_dropWhile_not isWs l c hc

theorem strip_lastOk (l : List Char) : LastOk (strip l) := rstrip_lastOk _

theorem strip_eq_self (l : List Char) (h1 : FirstOk l) (h2 : LastOk l) : strip l = l := by
  rw [strip, lstrip, dropWhile_eq_self_of isWs l h1, rstrip_eq_self l h2]

theorem mem_splitNl (l : List Char) : ∀ ln ∈ splitNl l, ∀ c ∈ ln, c ∈ l := by
  induction l with
  | nil => intro ln h; exact absurd h (by simp [splitNl])
  | cons a rest ih =>
    intro ln hln c hc
    by_cases ha : a = '\n'
    · rw [show splitNl (a :: rest) = if a = '\n' then [] :: splitNl rest else
        match splitNl rest with
        | [] => [[a]]
        | l :: ls => (a :: l) :: ls from rfl, if_pos ha] at hln
      rcases List.mem_cons.mp hln with he | hm
      · subst he; exact absurd hc (by simp)
      · exact List.mem_cons_of_mem _ (ih ln hm c hc)
    · rw [show splitNl (a :: rest) = if a = '\n' then [] :: splitNl rest else
        match splitNl rest with
        | [] => [[a]]
        | l :: ls => (a :: l) :: ls from rfl, if_neg ha] at hln
      cases hs : splitNl rest with
      | nil =>
        rw [hs] at hln
        rw [List.mem_singleton] at hln
        subst hln
        rw [List.mem_singleton] at hc
        subst hc
        simp
      | cons ln0 ls =>
        rw [hs] at hln
        rcases List.mem_cons.mp hln with he | hm
        · subst he
          rcases List.mem_cons.mp hc with he2 | hm2
          · subst he2; simp
          · exact List.mem_cons_of_mem _ (ih ln0 (by rw [hs]; simp) c hm2)
        · exact List.mem_cons_of_mem _ (ih ln (by rw [hs]; simp [hm]) c hc)

theorem mem_joinNl (ls : List (List Char)) : ∀ c ∈ joinNl ls,
    c = '\n' ∨ ∃ ln ∈ ls, c ∈ ln := by
  induction ls with
  | nil => intro c hc; exact absurd hc (by simp [joinNl])
  | cons hd tl ih =>
    intro c hc
    cases tl with
    | nil => exact Or.inr ⟨hd, by simp, hc⟩
    | cons hd2 tl2 =>
      rw [show joinNl (hd :: hd2 :: tl2) = hd ++ '\n' :: joinNl (hd2 :: tl2) from rfl] at hc
      rcases List.mem_append.mp hc with hm | hm
      · exact Or.inr ⟨hd, by simp, hm⟩
      · rcases List.mem_cons.mp hm with he | hm2
        · exact Or.inl he
        · rcases ih c hm2 with he | ⟨ln, hl, hcl⟩
          · exact Or.inl he
          · exact Or.inr ⟨ln, by simp [hl], hcl⟩

theorem mem_rstripLines (l : List Char) : ∀ c ∈ rstripLines l, c ∈ l ∨ c = '\n' := by
  intro c hc
  rcases mem_joinNl _ c hc with he | ⟨ln, hl, hcl⟩
  · exact Or.inr he
  · rw [List.mem_map] at hl
    obtain ⟨ln0, hln0, hr⟩ := hl
    refine Or.inl (mem_splitNl l ln0 hln0 c ?_)
    rw [← hr] at hcl
    exact (rstrip_pref ln0).sublist.subset hcl

theorem mem_cnlF (f : Nat) : ∀ x : List Char, ∀ c ∈ cnlF f x, c ∈ x ∨ c = '\n' := by
  induction f with
  | zero => intro x c hc; exact Or.inl hc
  | succ f ih =>
    intro x c hc
    cases x with
    | nil => exact absurd hc (by simp [cnlF])
    | cons a rest =>
      show c ∈ a :: rest ∨ c = '\n'
      by_cases ha : a = '\n'
      · rw [show cnlF (f + 1) (a :: rest) = if a = '\n' then
          (if 4 ≤ (rest.takeWhile (fun d => d = '\n')).length + 1 then ['\n', '\n']
           else List.replicate ((rest.takeWhile (fun d => d = '\n')).length + 1) '\n')
            ++ cnlF f (rest.drop (rest.takeWhile (fun d => d = '\n')).length)
          else a :: cnlF f rest from rfl, if_pos ha] at hc
        rcases List.mem_append.mp hc with hm | hm
        · right
          by_cases h4 : 4 ≤ (rest.takeWhile (fun d => d = '\n')).length + 1
          · rw [if_pos h4] at hm
            rcases List.mem_cons.mp hm with he | hm2
            · exact he
            · rw [List.mem_singleton] at hm2; exact hm2
          · rw [if_neg h4] at hm
            exact List.eq_of_mem_replicate hm
        · rcases ih _ c hm with hm2 | he
          · exact Or.inl (List.mem_cons_of_mem _ (List.drop_subset _ _ hm2))
          · exact Or.inr he
      · rw [show cnlF (f + 1) (a :: rest) = if a = '\n' then
          (if 4 ≤ (rest.takeWhile (fun d => d = '\n')).length + 1 then ['\n', '\n']
           else List.replicate ((rest.takeWhile (fun d => d = '\n')).length + 1) '\n')
            ++ cnlF f (rest.drop (rest.takeWhile (fun d => d = '\n')).length)
          else a :: cnlF f rest from rfl, if_neg ha] at hc
        rcases List.mem_cons.mp hc with he | hm
        · exact Or.inl (by simp [he])
        · rcases ih rest c hm with hm2 | he
          · exact Or.inl (List.mem_cons_of_mem _ hm2)
          · exact Or.inr he

theorem mem_cspF (f : Nat) : ∀ x : List Char, ∀ c ∈ cspF f x, c ∈ x ∨ c = ' ' := by
  induction f with
  | zero => intro x c hc; exact Or.inl hc
  | succ f ih =>
    intro x c hc
    cases x with
    | nil => exact absurd hc (by simp [cspF])
    | cons a rest =>
      show c ∈ a :: rest ∨ c = ' '
      by_cases ha : isSpTab a = true
      · rw [show cspF (f + 1) (a :: rest) = if isSpTab a then
          (if 2 ≤ (rest.takeWhile isSpTab).length + 1 then [' '] else [a])
            ++ cspF f (rest.drop (rest.takeWhile isSpTab).length)
          else a :: cspF f rest from rfl, if_pos ha] at hc
        rcases List.mem_append.mp hc with hm | hm
        · by_cases h2 : 2 ≤ (rest.takeWhile isSpTab).length + 1
          · rw [if_pos h2, List.mem_singleton] at hm
            exact Or.inr hm
          · rw [if_neg h2, List.mem_singleton] at hm
            exact Or.inl (by simp [hm])
        · rcases ih _ c hm with hm2 | he
          · exact Or.inl (List.mem_cons_of_mem _ (List.drop_subset _ _ hm2))
          · exact Or.inr he
      · rw [show cspF (f + 1) (a :: rest) = if isSpTab a then
          (if 2 ≤ (rest.takeWhile isSpTab).length + 1 then [' '] else [a])
            ++ cspF f (rest.drop (rest.takeWhile isSpTab).length)
          else a :: cspF f rest from rfl, if_neg ha] at hc
        rcases List.mem_cons.mp hc with he | hm
        · exact Or.inl (by simp [he])
        · rcases ih rest c hm with hm2 | he
          · exact Or.inl (List.mem_cons_of_mem _ hm2)
          · exact Or.inr he

theorem jhF_id (f : Nat) : ∀ l : List Char, '-' ∉ l → jhF f l = l := by
  induction f with
  | zero => intro l _; rfl
  | succ f ih =>
    intro l hl
    cases l with
    | nil => rfl
    | cons c rest =>
      show (if c = '-' ∧ rest.head? = some '\n' then jhF f (rest.tail.dropWhile isWs)
        else c :: jhF f rest) = c :: rest
      rw [if_neg (fun hh => hl (by rw [hh.1]; simp))]
      rw [ih rest (fun hm => hl (List.mem_cons_of_mem _ hm))]

theorem tryEllipsis_none_no_dot (l : List Char) (hl : '.' ∉ l) : tryEllipsis l = none := by
  unfold tryEllipsis
  rw [if_neg]
  intro hh
  have hmem : '.' ∈ l.dropWhile isWs := by
    cases hd : l.dropWhile isWs with
    | nil => rw [hd] at hh; exact absurd hh (by simp)
    | cons a r =>
      rw [hd, List.head?_cons, Option.some.injEq] at hh
      rw [← hh]
      simp
  exact hl ((List.dropWhile_sublist isWs).subset hmem)

theorem ellF_id (f : Nat) : ∀ l : List Char, '.' ∉ l → ellF f l = l := by
  induction f with
  | zero => intro l _; rfl
  | succ f ih =>
    intro l hl
    cases l with
    | nil => rfl
    | cons c rest =>
      show (match tryEllipsis (c :: rest) with
            | some r => '…' :: ellF f r
            | none => c :: ellF f rest) = c :: rest
      rw [tryEllipsis_none_no_dot (c :: rest) hl]
      rw [ih rest (fun hm => hl (List.mem_cons_of_mem _ hm))]

/-- On text containing no hyphen, no full stop, no NUL, and only
NFKC-fixed characters, the first four steps of minimal_clean are the
identity. -/
theorem minimal_clean_eq_restricted (t : List Char)
    (hre : ∀ c ∈ t, nfkcChar c = [c] ∧ ¬ c = '-' ∧ ¬ c = '.' ∧ ¬ c = '\x00') :
    minimal_clean t = strip (collapseSp (collapseNl (rstripLines t))) := by
  show strip (collapseSp (collapseNl (rstripLines (ellipsisSub (joinHyphen
    (nfkc (t.filter (fun c => c ≠ '\x00')))))))) = _
  have h1 : t.filter (fun c => c ≠ '\x00') = t := by
    rw [List.filter_eq_self]
    intro c hc
    simp only [decide_eq_true_eq]
    exact (hre c hc).2.2.2
  rw [h1]
  have h2 : nfkc t = t := flatMap_nfkc_fix t (fun c hc => (hre c hc).1)
  rw [h2]
  have h3 : joinHyphen t = t := jhF_id _ t (fun hm => (hre '-' hm).2.1 rfl)
  rw [h3]
  have h4 : ellipsisSub t = t := ellF_id _ t (fun hm => (hre '.' hm).2.2.1 rfl)
  rw [h4]

theorem pair_infix_cons (c1 c2 a : Char) (y : List Char) (h : [c1, c2] <:+: a :: y) :
    (c1 = a ∧ y.head? = some c2) ∨ [c1, c2] <:+: y := by
  rcases List.infix_cons_iff.mp h with hp | hi
  · obtain ⟨w, hw⟩ := hp
    rw [List.cons_append, List.cons_append, List.nil_append] at hw
    injection hw with h1 h2
    refine Or.inl ⟨h1, ?_⟩
    rw [← h2]
    rfl
  · exact Or.inr hi

theorem pair_infix_append (c1 c2 : Char) (u v : List Char)
    (h : [c1, c2] <:+: u ++ v) :
    [c1, c2] <:+: u ∨ [c1, c2] <:+: v ∨ (u.getLast? = some c1 ∧ v.head? = some c2) := by
  induction u with
  | nil => exact Or.inr (Or.inl (by simpa using h))
  | cons a u1 ih =>
    rw [List.cons_append] at h
    rcases pair_infix_cons c1 c2 a (u1 ++ v) h with ⟨h1, h2⟩ | hi
    · cases u1 with
      | nil =>
        rw [List.nil_append] at h2
        exact Or.inr (Or.inr ⟨by rw [h1]; rfl, h2⟩)
      | cons b u2 =>
        rw [List.cons_append, List.head?_cons, Option.some.injEq] at h2
        refine Or.inl ?_
        subst h1
        subst h2
        exact ⟨[], u2, by simp⟩
    · rcases ih hi with h1 | h1 | ⟨h1, h2⟩
      · exact Or.inl (List.infix_cons h1)
      · exact Or.inr (Or.inl h1)
      · refine Or.inr (Or.inr ⟨?_, h2⟩)
        rw [← h1]
        cases u1 with
        | nil => exact absurd h1 (by simp)
        | cons b u2 => rfl

theorem last_run_pair (u : List Char) (d : Char) (w : List Char) (hne : u ≠ []) :
    ∀ c ∈ u.getLast?, [c, d] <:+: u ++ d :: w := by
  induction u with
  | nil => intro c hc; exact absurd rfl hne
  | cons a u1 ih =>
    intro c hc
    cases u1 with
    | nil =>
      rw [show ([a] : List Char).getLast? = some a from rfl, Option.mem_def,
        Option.some.injEq] at hc
      subst hc
      exact ⟨[], w, by simp⟩
    | cons b u2 =>
      have hc2 : c ∈ (b :: u2).getLast? := by
        rw [List.getLast?_cons_cons] at hc
        exact hc
      rw [List.cons_append]
      exact List.infix_cons (ih (by simp) c hc2)

theorem cnlF_head? (f : Nat) : ∀ x : List Char, x.length < f →
    (cnlF f x).head? = x.head? := by
  intro x
  cases f with
  | zero => intro h0; exact absurd h0 (Nat.not_lt_zero _)
  | succ f =>
    intro _
    cases x with
    | nil => rfl
    | cons a rest =>
      show (if a = '\n' then
        (if 4 ≤ (rest.takeWhile (fun d => d = '\n')).length + 1 then ['\n', '\n']
         else List.replicate ((rest.takeWhile (fun d => d = '\n')).length + 1) '\n')
          ++ cnlF f (rest.drop (rest.takeWhile (fun d => d = '\n')).length)
        else a :: cnlF f rest).head? = _
      by_cases ha : a = '\n'
      · rw [if_pos ha]
        by_cases h4 : 4 ≤ (rest.takeWhile (fun d => d = '\n')).length + 1
        · rw [if_pos h4, ha]
          rfl
        · rw [if_neg h4, List.replicate_succ, List.cons_append, ha]
          rfl
      · rw [if_neg ha]
        rfl

theorem cspF_head_of_not_spTab (f : Nat) (x : List Char) (hx : ∀ c ∈ x.head?, isSpTab c = false) :
    (cspF f x).head? = x.head? := by
  cases f with
  | zero => rfl
  | succ f =>
    cases x with
    | nil => rfl
    | cons a rest =>
      show (if isSpTab a then
        (if 2 ≤ (rest.takeWhile isSpTab).length + 1 then [' '] else [a])
          ++ cspF f (rest.drop (rest.takeWhile isSpTab).length)
        else a :: cspF f rest).head? = _
      rw [if_neg (by rw [hx a rfl]; simp)]
      rfl

theorem cspF_head_nl (f : Nat) (x : List Char)
    (h : (cspF f x).head? = some '\n') : x.head? = some '\n' := by
  cases f with
  | zero => exact h
  | succ f =>
    cases x with
    | nil => exact h
    | cons a rest =>
      by_cases ha : isSpTab a = true
      · exfalso
        rw [show cspF (f + 1) (a :: rest) = (if 2 ≤ (rest.takeWhile isSpTab).length + 1
            then [' '] else [a]) ++ cspF f (rest.drop (rest.takeWhile isSpTab).length)
            from by rw [show cspF (f + 1) (a :: rest) = if isSpTab a then _ else
              a :: cspF f rest from rfl, if_pos ha]] at h
        by_cases h2 : 2 ≤ (rest.takeWhile isSpTab).length + 1
        · rw [if_pos h2, List.cons_append, List.head?_cons, Option.some.injEq] at h
          exact absurd h.symm (by decide)
        · rw [if_neg h2, List.cons_append, List.head?_cons, Option.some.injEq] at h
          rw [h] at ha
          exact absurd ha (by decide)
      · rw [show cspF (f + 1) (a :: rest) = if isSpTab a then _ else
          a :: cspF f rest from rfl, if_neg ha, List.head?_cons] at h
        exact h

theorem noTrailMid_of_inf (x y : List Char) (h : y <:+: x) (hx : NoTrailMid x) :
    NoTrailMid y := fun c hc hinf => hx c hc (hinf.trans h)

theorem noQuad_of_inf (x y : List Char) (h : y <:+: x) (hx : NoQuad x) : NoQuad y :=
  fun hinf => hx (hinf.trans h)

theorem noDbl_of_inf (x y : List Char) (h : y <:+: x) (hx : NoDbl x) : NoDbl y :=
  fun c1 c2 h1 h2 hinf => hx c1 c2 h1 h2 (hinf.trans h)

theorem replicate_prefix_head (m n : Nat) (v : List Char)
    (h : List.replicate m '\n' <+: List.replicate n '\n' ++ v) (hm : n < m) :
    v.head? = some '\n' := by
  obtain ⟨w, hw⟩ := h
  have hv : v = List.replicate (m - n) '\n' ++ w := by
    have := congrArg (List.drop n) hw
    rw [List.drop_append_of_le_length (by simp; omega), List.drop_replicate] at this
    rw [List.drop_append_of_le_length (by simp), List.drop_replicate] at this
    simp only [Nat.sub_self, List.replicate_zero, List.nil_append] at this
    exact this.symm
  rw [hv]
  have : m - n = (m - n - 1) + 1 := by omega
  rw [this, List.replicate_succ, List.cons_append]
  rfl

theorem noQuad_replicate_append (n : Nat) (v : List Char) (hn : n ≤ 3)
    (hv : v.head? ≠ some '\n') (hq : NoQuad v) :
    NoQuad (List.replicate n '\n' ++ v) := by
  induction n with
  | zero => simpa using hq
  | succ k ih =>
    intro hinf
    rw [List.replicate_succ, List.cons_append] at hinf
    rcases List.infix_cons_iff.mp hinf with hp | hi
    · have h3 : List.replicate 3 '\n' <+: List.replicate k '\n' ++ v := by
        obtain ⟨w, hw⟩ := hp
        rw [show (['\n', '\n', '\n', '\n'] : List Char) = '\n' :: List.replicate 3 '\n'
          from rfl, List.cons_append] at hw
        injection hw with _ h2
        exact ⟨w, h2⟩
      exact hv (replicate_prefix_head 3 k v h3 (by omega))
    · exact ih (by omega) hi

theorem splitNl_no_nl (l : List Char) : ∀ ln ∈ splitNl l, '\n' ∉ ln := by
  induction l with
  | nil => intro ln h; exact absurd h (by simp [splitNl])
  | cons a rest ih =>
    intro ln hln
    by_cases ha : a = '\n'
    · rw [show splitNl (a :: rest) = if a = '\n' then [] :: splitNl rest else
        match splitNl rest with
        | [] => [[a]]
        | l :: ls => (a :: l) :: ls from rfl, if_pos ha] at hln
      rcases List.mem_cons.mp hln with he | hm
      · subst he; simp
      · exact ih ln hm
    · rw [show splitNl (a :: rest) = if a = '\n' then [] :: splitNl rest else
        match splitNl rest with
        | [] => [[a]]
        | l :: ls => (a :: l) :: ls from rfl, if_neg ha] at hln
      cases hs : splitNl rest with
      | nil =>
        rw [hs, List.mem_singleton] at hln
        subst hln
        intro hm
        rw [List.mem_singleton] at hm
        exact ha hm.symm
      | cons ln0 ls =>
        rw [hs] at hln
        rcases List.mem_cons.mp hln with he | hm
        · subst he
          intro hm
          rcases List.mem_cons.mp hm with he2 | hm2
          · exact ha he2.symm
          · exact ih ln0 (by rw [hs]; simp) hm2
        · exact ih ln (by rw [hs]; simp [hm])

theorem line_noTrailMid (ln : List Char) (hnl : '\n' ∉ ln) : NoTrailMid ln :=
  fun _ _ hinf => hnl (hinf.sublist.subset (by simp))

theorem noTrailMid_append_line (u w : List Char) (hnl : '\n' ∉ u)
    (hlast : ∀ c ∈ u.getLast?, isWs c = false) (hw : NoTrailMid w) :
    NoTrailMid (u ++ w) := by
  intro c hc hinf
  rcases pair_infix_append c '\n' u w hinf with h1 | h1 | ⟨h1, _⟩
  · exact hnl (h1.sublist.subset (by simp))
  · exact hw c hc h1
  · have := hlast c h1
    rw [isTrWs, Bool.and_eq_true] at hc
    rw [this] at hc
    exact absurd hc.1 (by simp)

theorem noTrailMid_nl_cons (v : List Char) (hv : NoTrailMid v) : NoTrailMid ('\n' :: v) := by
  intro c hc hinf
  rcases pair_infix_cons c '\n' '\n' v hinf with ⟨h1, _⟩ | hi
  · rw [h1] at hc
    exact absurd hc (by decide)
  · exact hv c hc hi

theorem joinNl_noTrailMid (ls : List (List Char))
    (h : ∀ ln ∈ ls, '\n' ∉ ln ∧ (∀ c ∈ ln.getLast?, isWs c = false)) :
    NoTrailMid (joinNl ls) := by
  induction ls with
  | nil => intro c hc hinf; rw [show joinNl [] = [] from rfl, List.infix_nil] at hinf; simp at hinf
  | cons hd tl ih =>
    cases tl with
    | nil => exact line_noTrailMid hd (h hd (by simp)).1
    | cons hd2 tl2 =>
      rw [show joinNl (hd :: hd2 :: tl2) = hd ++ '\n' :: joinNl (hd2 :: tl2) from rfl]
      refine noTrailMid_append_line hd _ (h hd (by simp)).1 (h hd (by simp)).2 ?_
      exact noTrailMid_nl_cons _ (ih (fun ln hln => h ln (by simp [hln])))

theorem rstripLines_noTrailMid (l : List Char) : NoTrailMid (rstripLines l) := by
  refine joinNl_noTrailMid _ ?_
  intro ln hln
  rw [List.mem_map] at hln
  obtain ⟨ln0, hln0, hr⟩ := hln
  subst hr
  exact ⟨fun hm => splitNl_no_nl l ln0 hln0 ((rstrip_pref ln0).sublist.subset hm),
    rstrip_lastOk ln0⟩

theorem run_all_nl (k : Nat) :
    ∀ c ∈ (if 4 ≤ k + 1 then ['\n', '\n'] else List.replicate (k + 1) '\n'), c = '\n' := by
  intro c hc
  by_cases h4 : 4 ≤ k + 1
  · rw [if_pos h4] at hc
    rcases List.mem_cons.mp hc with he | hm
    · exact he
    · rw [List.mem_singleton] at hm; exact hm
  · rw [if_neg h4] at hc
    exact List.eq_of_mem_replicate hc

theorem run_ne_nil (k : Nat) :
    (if 4 ≤ k + 1 then ['\n', '\n'] else List.replicate (k + 1) '\n') ≠ [] := by
  by_cases h4 : 4 ≤ k + 1
  · rw [if_pos h4]; simp
  · rw [if_neg h4]; simp

theorem cnlF_noTrailMid (f : Nat) : ∀ x : List Char, x.length < f → NoTrailMid x →
    NoTrailMid (cnlF f x) := by
  induction f with
  | zero => intro x h0; exact absurd h0 (Nat.not_lt_zero _)
  | succ f ih =>
    intro x hlen hx
    cases x with
    | nil =>
      intro c hc hinf
      rw [show cnlF (f + 1) [] = [] from rfl, List.infix_nil] at hinf
      simp at hinf
    | cons a rest =>
      have hsub : ∀ k : Nat, rest.drop k <:+: a :: rest := fun k =>
        ((List.drop_suffix k rest).trans (List.suffix_cons a rest)).isInfix
      have hdlen : ∀ k : Nat, (rest.drop k).length < f := by
        intro k
        rw [List.length_drop]
        rw [List.length_cons] at hlen
        omega
      by_cases ha : a = '\n'
      · rw [show cnlF (f + 1) (a :: rest) = if a = '\n' then
          (if 4 ≤ (rest.takeWhile (fun d => d = '\n')).length + 1 then ['\n', '\n']
           else List.replicate ((rest.takeWhile (fun d => d = '\n')).length + 1) '\n')
            ++ cnlF f (rest.drop (rest.takeWhile (fun d => d = '\n')).length)
          else a :: cnlF f rest from rfl, if_pos ha]
        intro c hc hinf
        have hcont : NoTrailMid (cnlF f (rest.drop (rest.takeWhile (fun d => d = '\n')).length)) :=
          ih _ (hdlen _) (noTrailMid_of_inf _ _ (hsub _) hx)
        rcases pair_infix_append c '\n' _ _ hinf with h1 | h1 | ⟨h1, _⟩
        · have hcnl : c = '\n' := run_all_nl _ c (h1.sublist.subset (by simp))
          rw [hcnl] at hc
          exact absurd hc (by decide)
        · exact hcont c hc h1
        · have hcnl : c = '\n' := run_all_nl _ c (List.mem_of_mem_getLast? h1)
          rw [hcnl] at hc
          exact absurd hc (by decide)
      · rw [show cnlF (f + 1) (a :: rest) = if a = '\n' then
          (if 4 ≤ (rest.takeWhile (fun d => d = '\n')).length + 1 then ['\n', '\n']
           else List.replicate ((rest.takeWhile (fun d => d = '\n')).length + 1) '\n')
            ++ cnlF f (rest.drop (rest.takeWhile (fun d => d = '\n')).length)
          else a :: cnlF f rest from rfl, if_neg ha]
        intro c hc hinf
        have hrest : NoTrailMid rest :=
          noTrailMid_of_inf _ _ (List.suffix_cons a rest).isInfix hx
        rcases pair_infix_cons c '\n' a (cnlF f rest) hinf with ⟨h1, h2⟩ | hi
        · rw [cnlF_head? f rest (by rw [List.length_cons] at hlen; omega)] at h2
          subst h1
          refine hx c hc ?_
          cases rest with
          | nil => exact absurd h2 (by simp)
          | cons b rest2 =>
            rw [List.head?_cons, Option.some.injEq] at h2
            subst h2
            exact ⟨[], rest2, by simp⟩
        · exact ih rest (by rw [List.length_cons] at hlen; omega) hrest c hc hi

theorem cnlF_noQuad (f : Nat) : ∀ x : List Char, x.length < f → NoQuad (cnlF f x) := by
  induction f with
  | zero => intro x h0; exact absurd h0 (Nat.not_lt_zero _)
  | succ f ih =>
    intro x hlen
    cases x with
    | nil =>
      intro hinf
      rw [show cnlF (f + 1) [] = [] from rfl, List.infix_nil] at hinf
      simp at hinf
    | cons a rest =>
      have hdlen : ∀ k : Nat, (rest.drop k).length < f := by
        intro k
        rw [List.length_drop]
        rw [List.length_cons] at hlen
        omega
      by_cases ha : a = '\n'
      · rw [show cnlF (f + 1) (a :: rest) = if a = '\n' then
          (if 4 ≤ (rest.takeWhile (fun d => d = '\n')).length + 1 then ['\n', '\n']
           else List.replicate ((rest.takeWhile (fun d => d = '\n')).length + 1) '\n')
            ++ cnlF f (rest.drop (rest.takeWhile (fun d => d = '\n')).length)
          else a :: cnlF f rest from rfl, if_pos ha]
        have hhead : (cnlF f (rest.drop (rest.takeWhile (fun d => d = '\n')).length)).head?
            ≠ some '\n' := by
          rw [cnlF_head? f _ (hdlen _), drop_len_takeWhile]
          intro hh
          have := head?_dropWhile_not (fun d => decide (d = '\n')) rest '\n' hh
          simp at this
        set k := (rest.takeWhile (fun d => d = '\n')).length with hk
        by_cases h4 : 4 ≤ k + 1
        · rw [if_pos h4]
          rw [show (['\n', '\n'] : List Char) = List.replicate 2 '\n' from rfl]
          exact noQuad_replicate_append 2 _ (by omega) hhead (ih _ (hdlen _))
        · rw [if_neg h4]
          exact noQuad_replicate_append (k + 1) _ (by omega) hhead (ih _ (hdlen _))
      · rw [show cnlF (f + 1) (a :: rest) = if a = '\n' then
          (if 4 ≤ (rest.takeWhile (fun d => d = '\n')).length + 1 then ['\n', '\n']
           else List.replicate ((rest.takeWhile (fun d => d = '\n')).length + 1) '\n')
            ++ cnlF f (rest.drop (rest.takeWhile (fun d => d = '\n')).length)
          else a :: cnlF f rest from rfl, if_neg ha]
        intro hinf
        rcases List.infix_cons_iff.mp hinf with hp | hi
        · obtain ⟨w, hw⟩ := hp
          rw [List.cons_append] at hw
          injection hw with h1 _
          exact ha h1.symm
        · exact ih rest (by rw [List.length_cons] at hlen; omega) hi

theorem spTab_trWs (c : Char) (h : isSpTab c = true) : isTrWs c = true := by
  simp only [isSpTab, Bool.or_eq_true, decide_eq_true_eq] at h
  rcases h with rfl | rfl <;> decide

theorem getLast?_some_of_ne_nil (u : List Char) (hne : u ≠ []) :
    ∃ c, u.getLast? = some c := by
  cases hu : u.getLast? with
  | none => exact absurd (List.getLast?_eq_none_iff.mp hu) hne
  | some c => exact ⟨c, rfl⟩

theorem cspF_noTrailMid (f : Nat) : ∀ x : List Char, x.length < f → NoTrailMid x →
    NoTrailMid (cspF f x) := by
  induction f with
  | zero => intro x h0; exact absurd h0 (Nat.not_lt_zero _)
  | succ f ih =>
    intro x hlen hx
    cases x with
    | nil =>
      intro c hc hinf
      rw [show cspF (f + 1) [] = [] from rfl, List.infix_nil] at hinf
      simp at hinf
    | cons a rest =>
      have hdlen : ∀ k : Nat, (rest.drop k).length < f := by
        intro k
        rw [List.length_drop]
        rw [List.length_cons] at hlen
        omega
      have hnl_pull : (rest.drop ((rest.takeWhile isSpTab).length)).head? = some '\n' →
          isSpTab a = true → False := by
        intro hh haa
        rw [drop_len_takeWhile] at hh
        cases hu : rest.takeWhile isSpTab with
        | nil =>
          have hdw : rest.dropWhile isSpTab = rest := by
            rw [← drop_len_takeWhile, hu]
            rfl
          rw [hdw] at hh
          refine hx a (spTab_trWs a haa) ?_
          cases rest with
          | nil => exact absurd hh (by simp)
          | cons b rest2 =>
            rw [List.head?_cons, Option.some.injEq] at hh
            subst hh
            exact ⟨[], rest2, by simp⟩
        | cons u0 u1 =>
          obtain ⟨cl, hcl⟩ := getLast?_some_of_ne_nil (u0 :: u1) (by simp)
          have hclmem : cl ∈ rest.takeWhile isSpTab := by
            rw [hu]
            exact List.mem_of_mem_getLast? hcl
          have hclsp : isSpTab cl = true := List.mem_takeWhile_imp hclmem
          cases hd : rest.dropWhile isSpTab with
          | nil => rw [hd] at hh; exact absurd hh (by simp)
          | cons d w =>
            rw [hd, List.head?_cons, Option.some.injEq] at hh
            subst hh
            have hrest : rest = (u0 :: u1) ++ '\n' :: w := by
              rw [← hu, ← hd]
              exact (List.takeWhile_append_dropWhile isSpTab rest).symm
            refine hx cl (spTab_trWs cl hclsp) ?_
            have hpat := last_run_pair (u0 :: u1) '\n' w (by simp) cl hcl
            rw [← hrest] at hpat
            exact hpat.trans (List.suffix_cons a rest).isInfix
      by_cases ha : isSpTab a = true
      · rw [show cspF (f + 1) (a :: rest) = if isSpTab a then
          (if 2 ≤ (rest.takeWhile isSpTab).length + 1 then [' '] else [a])
            ++ cspF f (rest.drop (rest.takeWhile isSpTab).length)
          else a :: cspF f rest from rfl, if_pos ha]
        intro c hc hinf
        have hcont : NoTrailMid (cspF f (rest.drop (rest.takeWhile isSpTab).length)) := by
          refine ih _ (hdlen _) (noTrailMid_of_inf _ _ ?_ hx)
          exact ((List.drop_suffix _ rest).trans (List.suffix_cons a rest)).isInfix
        have hsingle : (if 2 ≤ (rest.takeWhile isSpTab).length + 1 then [' '] else [a])
            ++ cspF f (rest.drop (rest.takeWhile isSpTab).length) =
            (if 2 ≤ (rest.takeWhile isSpTab).length + 1 then ' ' else a)
            :: cspF f (rest.drop (rest.takeWhile isSpTab).length) := by
          by_cases h2 : 2 ≤ (rest.takeWhile isSpTab).length + 1
          · rw [if_pos h2, if_pos h2]
            rfl
          · rw [if_neg h2, if_neg h2]
            rfl
        rw [hsingle] at hinf
        rcases pair_infix_cons c '\n' _ _ hinf with ⟨_, h2⟩ | hi
        · exact hnl_pull (cspF_head_nl f _ h2) ha
        · exact hcont c hc hi
      · rw [show cspF (f + 1) (a :: rest) = if isSpTab a then
          (if 2 ≤ (rest.takeWhile isSpTab).length + 1 then [' '] else [a])
            ++ cspF f (rest.drop (rest.takeWhile isSpTab).length)
          else a :: cspF f rest from rfl, if_neg ha]
        intro c hc hinf
        rcases pair_infix_cons c '\n' a (cspF f rest) hinf with ⟨h1, h2⟩ | hi
        · subst h1
          have hh := cspF_head_nl f rest h2
          refine hx c hc ?_
          cases rest with
          | nil => exact absurd hh (by simp)
          | cons b rest2 =>
            rw [List.head?_cons, Option.some.injEq] at hh
            subst hh
            exact ⟨[], rest2, by simp⟩
        · exact ih rest (by rw [List.length_cons] at hlen; omega)
            (noTrailMid_of_inf _ _ (List.suffix_cons a rest).isInfix hx) c hc hi

theorem cspF_noDbl (f : Nat) : ∀ x : List Char, x.length < f → NoDbl (cspF f x) := by
  induction f with
  | zero => intro x h0; exact absurd h0 (Nat.not_lt_zero _)
  | succ f ih =>
    intro x hlen
    cases x with
    | nil =>
      intro c1 c2 h1 h2 hinf
      rw [show cspF (f + 1) [] = [] from rfl, List.infix_nil] at hinf
      simp at hinf
    | cons a rest =>
      have hdlen : ∀ k : Nat, (rest.drop k).length < f := by
        intro k
        rw [List.length_drop]
        rw [List.length_cons] at hlen
        omega
      by_cases ha : isSpTab a = true
      · rw [show cspF (f + 1) (a :: rest) = if isSpTab a then
          (if 2 ≤ (rest.takeWhile isSpTab).length + 1 then [' '] else [a])
            ++ cspF f (rest.drop (rest.takeWhile isSpTab).length)
          else a :: cspF f rest from rfl, if_pos ha]
        intro c1 c2 h1 h2 hinf
        have hsingle : (if 2 ≤ (rest.takeWhile isSpTab).length + 1 then [' '] else [a])
            ++ cspF f (rest.drop (rest.takeWhile isSpTab).length) =
            (if 2 ≤ (rest.takeWhile isSpTab).length + 1 then ' ' else a)
            :: cspF f (rest.drop (rest.takeWhile isSpTab).length) := by
          by_cases h2a : 2 ≤ (rest.takeWhile isSpTab).length + 1
          · rw [if_pos h2a, if_pos h2a]
            rfl
          · rw [if_neg h2a, if_neg h2a]
            rfl
        rw [hsingle] at hinf
        rcases pair_infix_cons c1 c2 _ _ hinf with ⟨_, hh⟩ | hi
        · have hns : ∀ c ∈ (rest.drop (rest.takeWhile isSpTab).length).head?,
              isSpTab c = false := by
            rw [drop_len_takeWhile]
            exact head?_dropWhile_not isSpTab rest
          rw [cspF_head_of_not_spTab f _ hns] at hh
          have := hns c2 hh
          rw [h2] at this
          exact absurd this (by simp)
        · exact ih _ (hdlen _) c1 c2 h1 h2 hi
      · rw [show cspF (f + 1) (a :: rest) = if isSpTab a then
          (if 2 ≤ (rest.takeWhile isSpTab).length + 1 then [' '] else [a])
            ++ cspF f (rest.drop (rest.takeWhile isSpTab).length)
          else a :: cspF f rest from rfl, if_neg ha]
        intro c1 c2 h1 h2 hinf
        rcases pair_infix_cons c1 c2 a (cspF f rest) hinf with ⟨hh, _⟩ | hi
        · rw [hh] at h1
          exact absurd h1 (by rw [Bool.not_eq_true] at ha; rw [ha]; simp)
        · exact ih rest (by rw [List.length_cons] at hlen; omega) c1 c2 h1 h2 hi

theorem cspF_prefix_nl_pull (f : Nat) : ∀ (n : Nat) (x : List Char),
    List.replicate n '\n' <+: cspF f x → List.replicate n '\n' <+: x := by
  induction f with
  | zero => intro n x h; exact h
  | succ f ih =>
    intro n x h
    cases n with
    | zero => simp
    | succ n =>
      cases x with
      | nil =>
        rw [show cspF (f + 1) [] = [] from rfl] at h
        have := h.length_le
        simp at this
      | cons a rest =>
        by_cases ha : isSpTab a = true
        · exfalso
          rw [show cspF (f + 1) (a :: rest) = if isSpTab a then
            (if 2 ≤ (rest.takeWhile isSpTab).length + 1 then [' '] else [a])
              ++ cspF f (rest.drop (rest.takeWhile isSpTab).length)
            else a :: cspF f rest from rfl, if_pos ha] at h
          obtain ⟨w, hw⟩ := h
          rw [List.replicate_succ, List.cons_append] at hw
          by_cases h2 : 2 ≤ (rest.takeWhile isSpTab).length + 1
          · rw [if_pos h2, List.singleton_append] at hw
            injection hw with h1 _
            exact absurd h1 (by decide)
          · rw [if_neg h2, List.singleton_append] at hw
            injection hw with h1 _
            rw [← h1] at ha
            exact absurd ha (by decide)
        · rw [show cspF (f + 1) (a :: rest) = if isSpTab a then
            (if 2 ≤ (rest.takeWhile isSpTab).length + 1 then [' '] else [a])
              ++ cspF f (rest.drop (rest.takeWhile isSpTab).length)
            else a :: cspF f rest from rfl, if_neg ha] at h
          obtain ⟨w, hw⟩ := h
          rw [List.replicate_succ, List.cons_append] at hw
          injection hw with h1 h2
          have hr : List.replicate n '\n' <+: rest := ih n rest ⟨w, h2⟩
          obtain ⟨w2, hw2⟩ := hr
          rw [List.replicate_succ, ← h1]
          exact ⟨w2, by rw [List.cons_append, hw2]⟩

theorem cspF_noQuad_pull (f : Nat) : ∀ x : List Char,
    (['\n', '\n', '\n', '\n'] <:+: cspF f x) → (['\n', '\n', '\n', '\n'] <:+: x) := by
  induction f with
  | zero => intro x h; exact h
  | succ f ih =>
    intro x h
    cases x with
    | nil =>
      rw [show cspF (f + 1) [] = [] from rfl, List.infix_nil] at h
      simp at h
    | cons a rest =>
      by_cases ha : isSpTab a = true
      · rw [show cspF (f + 1) (a :: rest) = if isSpTab a then
          (if 2 ≤ (rest.takeWhile isSpTab).length + 1 then [' '] else [a])
            ++ cspF f (rest.drop (rest.takeWhile isSpTab).length)
          else a :: cspF f rest from rfl, if_pos ha] at h
        have hsingle : (if 2 ≤ (rest.takeWhile isSpTab).length + 1 then [' '] else [a])
            ++ cspF f (rest.drop (rest.takeWhile isSpTab).length) =
            (if 2 ≤ (rest.takeWhile isSpTab).length + 1 then ' ' else a)
            :: cspF f (rest.drop (rest.takeWhile isSpTab).length) := by
          by_cases h2 : 2 ≤ (rest.takeWhile isSpTab).length + 1
          · rw [if_pos h2, if_pos h2]
            rfl
          · rw [if_neg h2, if_neg h2]
            rfl
        rw [hsingle] at h
        rcases List.infix_cons_iff.mp h with hp | hi
        · exfalso
          obtain ⟨w, hw⟩ := hp
          rw [List.cons_append] at hw
          injection hw with h1 _
          by_cases h2 : 2 ≤ (rest.takeWhile isSpTab).length + 1
          · rw [if_pos h2] at h1
            exact absurd h1 (by decide)
          · rw [if_neg h2] at h1
            rw [← h1] at ha
            exact absurd ha (by decide)
        · have := ih _ hi
          have hsuf : (rest.drop (rest.takeWhile isSpTab).length) <:+: a :: rest :=
            ((List.drop_suffix _ rest).trans (List.suffix_cons a rest)).isInfix
          exact this.trans hsuf
      · rw [show cspF (f + 1) (a :: rest) = if isSpTab a then
          (if 2 ≤ (rest.takeWhile isSpTab).length + 1 then [' '] else [a])
            ++ cspF f (rest.drop (rest.takeWhile isSpTab).length)
          else a :: cspF f rest from rfl, if_neg ha] at h
        rcases List.infix_cons_iff.mp h with hp | hi
        · obtain ⟨w, hw⟩ := hp
          rw [show (['\n', '\n', '\n', '\n'] : List Char) =
            '\n' :: List.replicate 3 '\n' from rfl, List.cons_append] at hw
          injection hw with h1 h2
          have hr : List.replicate 3 '\n' <+: rest := cspF_prefix_nl_pull f 3 rest ⟨w, h2⟩
          obtain ⟨w2, hw2⟩ := hr
          refine List.IsPrefix.isInfix ?_
          rw [show (['\n', '\n', '\n', '\n'] : List Char) =
            '\n' :: List.replicate 3 '\n' from rfl, ← h1]
          exact ⟨w2, by rw [List.cons_append, hw2]⟩
        · exact List.infix_cons (ih rest hi)

theorem cspF_fix (f : Nat) : ∀ y : List Char, y.length < f → NoDbl y → cspF f y = y := by
  induction f with
  | zero => intro y h0; exact absurd h0 (Nat.not_lt_zero _)
  | succ f ih =>
    intro y hlen hy
    cases y with
    | nil => rfl
    | cons a rest =>
      have hrest : NoDbl rest := noDbl_of_inf _ _ (List.suffix_cons a rest).isInfix hy
      by_cases ha : isSpTab a = true
      · have hk : (rest.takeWhile isSpTab).length = 0 := by
          by_contra hk0
          cases hr : rest with
          | nil => rw [hr] at hk0; simp at hk0
          | cons d rest2 =>
            rw [hr, List.takeWhile_cons] at hk0
            by_cases hd : isSpTab d = true
            · exact hy a d ha hd ⟨[], rest2, by rw [hr]; simp⟩
            · rw [Bool.not_eq_true] at hd
              rw [if_neg (by rw [hd]; simp)] at hk0
              simp at hk0
        rw [show cspF (f + 1) (a :: rest) = if isSpTab a then
          (if 2 ≤ (rest.takeWhile isSpTab).length + 1 then [' '] else [a])
            ++ cspF f (rest.drop (rest.takeWhile isSpTab).length)
          else a :: cspF f rest from rfl, if_pos ha, hk]
        rw [if_neg (by omega), List.drop_zero, List.singleton_append]
        rw [ih rest (by rw [List.length_cons] at hlen; omega) hrest]
      · rw [show cspF (f + 1) (a :: rest) = if isSpTab a then
          (if 2 ≤ (rest.takeWhile isSpTab).length + 1 then [' '] else [a])
            ++ cspF f (rest.drop (rest.takeWhile isSpTab).length)
          else a :: cspF f rest from rfl, if_neg ha]
        rw [ih rest (by rw [List.length_cons] at hlen; omega) hrest]

theorem cnlF_fix (f : Nat) : ∀ y : List Char, y.length < f → NoQuad y → cnlF f y = y := by
  induction f with
  | zero => intro y h0; exact absurd h0 (Nat.not_lt_zero _)
  | succ f ih =>
    intro y hlen hy
    cases y with
    | nil => rfl
    | cons a rest =>
      have hrest : NoQuad rest := noQuad_of_inf _ _ (List.suffix_cons a rest).isInfix hy
      by_cases ha : a = '\n'
      · set k := (rest.takeWhile (fun d => d = '\n')).length with hkdef
        have htw : rest.takeWhile (fun d => d = '\n') = List.replicate k '\n' := by
          rw [List.eq_replicate_iff]
          refine ⟨rfl, ?_⟩
          intro b hb
          have := List.mem_takeWhile_imp hb
          simpa using this
        have hk2 : k ≤ 2 := by
          by_contra hk3
          refine hy ?_
          have hsplit : rest = List.replicate k '\n' ++ rest.drop k := by
            rw [← htw, hkdef, drop_len_takeWhile]
            exact (List.takeWhile_append_dropWhile _ rest).symm
          have hpre : ['\n', '\n', '\n', '\n'] <+: a :: rest := by
            rw [show (['\n', '\n', '\n', '\n'] : List Char) =
              '\n' :: List.replicate 3 '\n' from rfl, ha, hsplit]
            have hkk : List.replicate k '\n' = List.replicate 3 '\n'
                ++ List.replicate (k - 3) '\n' := by
              rw [← List.replicate_add]
              congr 1
              omega
            refine ⟨List.replicate (k - 3) '\n' ++ rest.drop k, ?_⟩
            rw [List.cons_append, hkk]
            simp
          exact hpre.isInfix
        rw [show cnlF (f + 1) (a :: rest) = if a = '\n' then
          (if 4 ≤ (rest.takeWhile (fun d => d = '\n')).length + 1 then ['\n', '\n']
           else List.replicate ((rest.takeWhile (fun d => d = '\n')).length + 1) '\n')
            ++ cnlF f (rest.drop (rest.takeWhile (fun d => d = '\n')).length)
          else a :: cnlF f rest from rfl, if_pos ha]
        rw [← hkdef]
        rw [if_neg (by omega)]
        have hdnoquad : NoQuad (rest.drop k) :=
          noQuad_of_inf _ _ (List.drop_suffix k rest).isInfix hrest
        rw [ih (rest.drop k) (by rw [List.length_drop]; rw [List.length_cons] at hlen; omega)
          hdnoquad]
        rw [List.replicate_succ, List.cons_append, ha]
        congr 1
        rw [← htw, hkdef, drop_len_takeWhile]
        exact List.takeWhile_append_dropWhile _ rest
      · rw [show cnlF (f + 1) (a :: rest) = if a = '\n' then
          (if 4 ≤ (rest.takeWhile (fun d => d = '\n')).length + 1 then ['\n', '\n']
           else List.replicate ((rest.takeWhile (fun d => d = '\n')).length + 1) '\n')
            ++ cnlF f (rest.drop (rest.takeWhile (fun d => d = '\n')).length)
          else a :: cnlF f rest from rfl, if_neg ha]
        rw [ih rest (by rw [List.length_cons] at hlen; omega) hrest]

theorem splitNl_eq_nil_iff (x : List Char) : splitNl x = [] ↔ x = [] := by
  constructor
  · intro h
    cases x with
    | nil => rfl
    | cons a rest =>
      exfalso
      by_cases ha : a = '\n'
      · rw [show splitNl (a :: rest) = if a = '\n' then [] :: splitNl rest else
          match splitNl rest with
          | [] => [[a]]
          | l :: ls => (a :: l) :: ls from rfl, if_pos ha] at h
        simp at h
      · rw [show splitNl (a :: rest) = if a = '\n' then [] :: splitNl rest else
          match splitNl rest with
          | [] => [[a]]
          | l :: ls => (a :: l) :: ls from rfl, if_neg ha] at h
        cases hs : splitNl rest with
        | nil => rw [hs] at h; simp at h
        | cons ln0 ls0 => rw [hs] at h; simp at h
  · intro h
    subst h
    rfl

theorem joinNl_cons_head (c : Char) (ln : List Char) (ls : List (List Char)) :
    joinNl ((c :: ln) :: ls) = c :: joinNl (ln :: ls) := by
  cases ls with
  | nil => rfl
  | cons l2 ls2 => rfl

theorem splitNl_head_nl (x : List Char) (ls : List (List Char))
    (h : splitNl x = [] :: ls) : x.head? = some '\n' := by
  cases x with
  | nil => rw [show splitNl ([] : List Char) = [] from rfl] at h; simp at h
  | cons a rest =>
    by_cases ha : a = '\n'
    · rw [ha]; rfl
    · exfalso
      rw [show splitNl (a :: rest) = if a = '\n' then [] :: splitNl rest else
        match splitNl rest with
        | [] => [[a]]
        | l :: ls => (a :: l) :: ls from rfl, if_neg ha] at h
      cases hs : splitNl rest with
      | nil =>
        rw [hs] at h
        injection h with h1 _
        simp at h1
      | cons ln0 ls0 =>
        rw [hs] at h
        injection h with h1 _
        simp at h1

theorem getLast?_cons_tail (a : Char) (rest : List Char) (hne : rest ≠ []) :
    (a :: rest).getLast? = rest.getLast? := by
  cases rest with
  | nil => exact absurd rfl hne
  | cons b r2 => exact List.getLast?_cons_cons

theorem joinNl_splitNl (x : List Char) (h : ∀ c ∈ x.getLast?, ¬ c = '\n') :
    joinNl (splitNl x) = x := by
  induction x with
  | nil => rfl
  | cons a rest ih =>
    by_cases ha : a = '\n'
    · rw [show splitNl (a :: rest) = if a = '\n' then [] :: splitNl rest else
        match splitNl rest with
        | [] => [[a]]
        | l :: ls => (a :: l) :: ls from rfl, if_pos ha]
      cases hs : splitNl rest with
      | nil =>
        exfalso
        have hre : rest = [] := (splitNl_eq_nil_iff rest).mp hs
        subst hre
        exact h a (by rw [show ([a] : List Char).getLast? = some a from rfl]; rfl) ha
      | cons ln0 ls0 =>
        have hrne : rest ≠ [] := by
          intro he
          rw [he] at hs
          simp [show splitNl ([] : List Char) = [] from rfl] at hs
        rw [show joinNl ([] :: ln0 :: ls0) = [] ++ '\n' :: joinNl (ln0 :: ls0) from rfl]
        rw [List.nil_append, ← hs, ih ?hrest2, ha]
        case hrest2 =>
          intro c hc
          refine h c ?_
          rw [getLast?_cons_tail a rest hrne]
          exact hc
    · rw [show splitNl (a :: rest) = if a = '\n' then [] :: splitNl rest else
        match splitNl rest with
        | [] => [[a]]
        | l :: ls => (a :: l) :: ls from rfl, if_neg ha]
      cases hs : splitNl rest with
      | nil =>
        have hre : rest = [] := (splitNl_eq_nil_iff rest).mp hs
        subst hre
        rfl
      | cons ln0 ls0 =>
        have hrne : rest ≠ [] := by
          intro he
          rw [he] at hs
          simp [show splitNl ([] : List Char) = [] from rfl] at hs
        rw [joinNl_cons_head, ← hs, ih ?hrest3]
        case hrest3 =>
          intro c hc
          refine h c ?_
          rw [getLast?_cons_tail a rest hrne]
          exact hc

theorem lines_lastOk (y : List Char) (hmid : NoTrailMid y) (hlast : LastOk y) :
    ∀ ln ∈ splitNl y, ∀ c ∈ ln.getLast?, isWs c = false := by
  induction y with
  | nil => intro ln h; exact absurd h (by simp [show splitNl ([] : List Char) = [] from rfl])
  | cons a rest ih =>
    have hmidr : NoTrailMid rest :=
      noTrailMid_of_inf _ _ (List.suffix_cons a rest).isInfix hmid
    intro ln hln c hc
    by_cases ha : a = '\n'
    · rw [show splitNl (a :: rest) = if a = '\n' then [] :: splitNl rest else
        match splitNl rest with
        | [] => [[a]]
        | l :: ls => (a :: l) :: ls from rfl, if_pos ha] at hln
      rcases List.mem_cons.mp hln with he | hm
      · subst he
        exact absurd hc (by simp)
      · cases hre : rest with
        | nil =>
          rw [hre] at hm
          exact absurd hm (by simp [show splitNl ([] : List Char) = [] from rfl])
        | cons b r2 =>
          have hlastr : LastOk rest := by
            intro d hd
            refine hlast d ?_
            rw [getLast?_cons_tail a rest (by rw [hre]; simp)]
            exact hd
          exact ih hmidr hlastr ln hm c hc
    · rw [show splitNl (a :: rest) = if a = '\n' then [] :: splitNl rest else
        match splitNl rest with
        | [] => [[a]]
        | l :: ls => (a :: l) :: ls from rfl, if_neg ha] at hln
      cases hs : splitNl rest with
      | nil =>
        rw [hs, List.mem_singleton] at hln
        subst hln
        rw [show ([a] : List Char).getLast? = some a from rfl, Option.mem_def,
          Option.some.injEq] at hc
        subst hc
        have hre : rest = [] := (splitNl_eq_nil_iff rest).mp hs
        subst hre
        exact hlast a (by rw [show ([a] : List Char).getLast? = some a from rfl]; rfl)
      | cons ln0 ls0 =>
        rw [hs] at hln
        have hrne : rest ≠ [] := by
          intro he
          rw [he] at hs
          simp [show splitNl ([] : List Char) = [] from rfl] at hs
        have hlastr : LastOk rest := by
          intro d hd
          refine hlast d ?_
          rw [getLast?_cons_tail a rest hrne]
          exact hd
        rcases List.mem_cons.mp hln with he | hm
        · subst he
          cases hln0 : ln0 with
          | nil =>
            rw [hln0] at hc
            rw [show ([a] : List Char).getLast? = some a from rfl, Option.mem_def,
              Option.some.injEq] at hc
            subst hc
            rw [hln0] at hs
            have hh := splitNl_head_nl rest ls0 hs
            have hpair : [a, '\n'] <:+: a :: rest := by
              cases rest with
              | nil => exact absurd hh (by simp)
              | cons b r2 =>
                rw [List.head?_cons, Option.some.injEq] at hh
                subst hh
                exact ⟨[], r2, by simp⟩
            by_contra hcws
            rw [Bool.not_eq_false] at hcws
            have hctr : isTrWs a = true := by
              rw [isTrWs, hcws]
              simp [ha]
            exact hmid a hctr hpair
          | cons d lr =>
            refine ih hmidr hlastr ln0 (by rw [hs]; simp) c ?_
            rw [hln0] at hc
            rw [List.getLast?_cons_cons] at hc
            rw [hln0]
            exact hc
        · exact ih hmidr hlastr ln (by rw [hs]; simp [hm]) c hc

theorem rstripLines_fix (y : List Char) (hmid : NoTrailMid y) (hlast : LastOk y) :
    rstripLines y = y := by
  rw [rstripLines]
  have hmap : (splitNl y).map rstrip = splitNl y := by
    have h1 : ∀ ln ∈ splitNl y, rstrip ln = ln := fun ln hln =>
      rstrip_eq_self ln (lines_lastOk y hmid hlast ln hln)
    rw [show (splitNl y).map rstrip = (splitNl y).map id from List.map_congr_left h1,
      List.map_id]
  rw [hmap]
  refine joinNl_splitNl y ?_
  intro c hc he
  subst he
  have := hlast '\n' hc
  exact absurd this (by decide)

/-- C3 (amended): minimal_clean is not idempotent in general (see the
counterexample), but it is idempotent on every input containing no
hyphen, no full stop, no NUL and only characters fixed by the modelled
NFKC map — the failure is confined to the interaction of the
hyphen-join and ellipsis rewrites with the whitespace passes. -/
theorem C3_idempotent_restricted (t : List Char)
    (hre : ∀ c ∈ t, nfkcChar c = [c] ∧ ¬ c = '-' ∧ ¬ c = '.' ∧ ¬ c = '\x00') :
    minimal_clean (minimal_clean t) = minimal_clean t := by
  rw [minimal_clean_eq_restricted t hre]
  have hrey : ∀ c ∈ strip (collapseSp (collapseNl (rstripLines t))),
      nfkcChar c = [c] ∧ ¬ c = '-' ∧ ¬ c = '.' ∧ ¬ c = '\x00' := by
    intro c hcy
    have hc3 : c ∈ collapseSp (collapseNl (rstripLines t)) :=
      (strip_inf _).sublist.subset hcy
    rcases mem_cspF _ _ c hc3 with hc2 | rfl
    · rcases mem_cnlF _ _ c hc2 with hc1 | rfl
      · rcases mem_rstripLines t c hc1 with hct | rfl
        · exact hre c hct
        · exact ⟨by decide, by decide, by decide, by decide⟩
      · exact ⟨by decide, by decide, by decide, by decide⟩
    · exact ⟨by decide, by decide, by decide, by decide⟩
  rw [minimal_clean_eq_restricted _ hrey]
  have hmid3 : NoTrailMid (collapseSp (collapseNl (rstripLines t))) :=
    cspF_noTrailMid _ _ (Nat.lt_succ_self _)
      (cnlF_noTrailMid _ _ (Nat.lt_succ_self _) (rstripLines_noTrailMid t))
  have hmidy : NoTrailMid (strip (collapseSp (collapseNl (rstripLines t)))) :=
    noTrailMid_of_inf _ _ (strip_inf _) hmid3
  have hquad3 : NoQuad (collapseSp (collapseNl (rstripLines t))) := fun hinf =>
    cnlF_noQuad _ _ (Nat.lt_succ_self _) (cspF_noQuad_pull _ _ hinf)
  have hquady : NoQuad (strip (collapseSp (collapseNl (rstripLines t)))) :=
    noQuad_of_inf _ _ (strip_inf _) hquad3
  have hdbly : NoDbl (strip (collapseSp (collapseNl (rstripLines t)))) :=
    noDbl_of_inf _ _ (strip_inf _) (cspF_noDbl _ _ (Nat.lt_succ_self _))
  have hlasty : LastOk (strip (collapseSp (collapseNl (rstripLines t)))) := strip_lastOk _
  have hfirsty : FirstOk (strip (collapseSp (collapseNl (rstripLines t)))) := strip_firstOk _
  rw [rstripLines_fix _ hmidy hlasty]
  rw [show collapseNl (strip (collapseSp (collapseNl (rstripLines t)))) =
    strip (collapseSp (collapseNl (rstripLines t))) from
    cnlF_fix _ _ (Nat.lt_succ_self _) hquady]
  rw [show collapseSp (strip (collapseSp (collapseNl (rstripLines t)))) =
    strip (collapseSp (collapseNl (rstripLines t))) from
    cspF_fix _ _ (Nat.lt_succ_self _) hdbly]
  exact strip_eq_self _ hfirsty hlasty

theorem C3_witness :
    (∀ c ∈ ("ab \n cd").data, nfkcChar c = [c] ∧ ¬ c = '-' ∧ ¬ c = '.' ∧ ¬ c = '\x00') ∧
    minimal_clean (minimal_clean (("ab \n cd").data)) = minimal_clean (("ab \n cd").data) :=
  ⟨by decide, C3_idempotent_restricted (("ab \n cd").data) (by decide)⟩
